import Mathlib

/-!
Verification of the opencode-usage commander core: the command registry and
background job runner (`src/commander/services/command-runner.ts`), the atomic
configuration store (`src/commander/services/config-service.ts`), and the
bunx invocation queue (`src/commander/services/plugin-adapters.ts`).

The TypeScript sources are shallowly embedded as pure Lean functions and
small-step trace semantics.  Event-loop concurrency is modelled as an
interleaving of the atomic (await-free) segments of the source; wall-clock
instants are `Nat` milliseconds, calendar timestamps are an explicit record.
File contents are `List Char`; JavaScript string order on ASCII names is the
lexicographic `List Char` order (`String.lt` is defined as `List.lt` on the
underlying character lists).  JSON numbers are modelled as integers; IEEE-754
fractional values are outside the model.
-/

namespace Commander

/-! ## Job runner data model (`services/types.ts`) -/

/-- `JobStatus` from `services/types.ts`. -/
inductive JobStatus where
  | queued
  | running
  | success
  | failed
  | cancelled
deriving DecidableEq, Repr

/-- Log levels of `JobLogEntry` in `services/types.ts`. -/
inductive LogLevel where
  | info
  | warn
  | error
deriving DecidableEq, Repr

/-- One entry of a job's append-only log (`JobLogEntry`), timestamps as ms. -/
structure LogEntry where
  ts : Nat
  level : LogLevel
  message : String
deriving DecidableEq, Repr

/-- The two failure codes written by `executeJob` in `command-runner.ts`. -/
inductive ErrCode where
  | TIMEOUT
  | RUNTIME_ERROR
deriving DecidableEq, Repr

/-! ## Command registry and `runCommand` (`command-runner.ts` lines 19-91)

`CommandSpec` is parameterised by the payload type `P`, the validated input
type `I` and the type `R` of the run body (the registry stores the body and
hands it to the executor without inspecting it, so it stays abstract here).
The TypeScript validator either throws or returns the parsed input; this is
embedded as `Except String I`. -/

/-- `CommandSpec` from `services/types.ts` (the `run` body kept opaque). -/
structure CommandSpec (P I R : Type) where
  id : String
  validateInput : P → Except String I
  run : R
  timeoutMs : Nat
  allowInUi : Bool

/-- A job as inserted by `runCommand` (fields it sets before dispatch). -/
structure StoredJob where
  id : String
  commandId : String
  status : JobStatus
deriving DecidableEq, Repr

/-- The module-level mutable state of `command-runner.ts`: the `registry`
and `jobs` maps, plus a counter modelling `crypto.randomUUID` freshness. -/
structure RunnerState (P I R : Type) where
  registry : List (String × CommandSpec P I R)
  jobs : List (String × StoredJob)
  nextId : Nat

/-- `registry.get(commandId)` — first binding for the key. -/
def lookupReg {P I R : Type} (reg : List (String × CommandSpec P I R))
    (cid : String) : Option (CommandSpec P I R) :=
  (reg.find? fun kv => decide (kv.1 = cid)).map (·.2)

/-- `registerCommand` (`command-runner.ts` lines 22-27): throws when the id
is already present, otherwise inserts.  The returned list is the registry
after the call (unchanged on the error path, since the throw precedes the
`set`). -/
def registerCommand {P I R : Type} (spec : CommandSpec P I R)
    (reg : List (String × CommandSpec P I R)) :
    Except String Unit × List (String × CommandSpec P I R) :=
  if (reg.find? fun kv => decide (kv.1 = spec.id)).isSome then
    (Except.error ("Command \"" ++ spec.id ++ "\" is already registered"), reg)
  else
    (Except.ok (), reg ++ [(spec.id, spec)])

/-- Errors `runCommand` throws synchronously. -/
inductive RunError where
  | unknownCommand (cid : String)
  | validation (msg : String)
deriving DecidableEq, Repr

/-- Models `crypto.randomUUID()` as a fresh id from the state counter. -/
def genJobId (n : Nat) : String := "job-" ++ toString n

/-- The found-spec branch of `runCommand` (`command-runner.ts` lines 68-90):
validate synchronously, then create the `queued` job, insert it into the
job store and return its id.  The async dispatch of `executeJob` is the
separate trace semantics below. -/
def runFound {P I R : Type} (cid : String) (spec : CommandSpec P I R)
    (payload : P) (st : RunnerState P I R) :
    Except RunError String × RunnerState P I R :=
  match spec.validateInput payload with
  | Except.error e => (Except.error (RunError.validation e), st)
  | Except.ok _ =>
      let jobId := genJobId st.nextId
      (Except.ok jobId,
        { st with
          jobs := st.jobs ++ [(jobId, ⟨jobId, cid, JobStatus.queued⟩)],
          nextId := st.nextId + 1 })

/-- `runCommand` (`command-runner.ts` lines 62-91). -/
def runCommand {P I R : Type} (cid : String) (payload : P)
    (st : RunnerState P I R) : Except RunError String × RunnerState P I R :=
  match lookupReg st.registry cid with
  | none => (Except.error (RunError.unknownCommand cid), st)
  | some spec => runFound cid spec payload st

/-! ## Job execution trace semantics (`command-runner.ts` lines 43-56, 97-145)

One job's lifetime is a sequence of atomic event-loop segments: the opening
segment of `executeJob`, the `setTimeout` callback, the success / failure
continuation of the run body, and any number of `cancelJob` calls.  A trace
is a list of such events; `step` returns `none` when an event cannot occur
(the timer cannot fire twice or after `clearTimeout`, the body settles once,
execution starts once).  The race of the spec's §4.1 is the interleaving
order of the trace; a trace in which `timerFire` precedes the body's
settling event is exactly a run body that did not settle within
`timeoutMs`. -/

/-- Per-job execution state: the `CommandJob` fields mutated by
`executeJob`/`cancelJob` plus the executor's local flags (`timedOut`, the
pending timer) and bookkeeping of which segments already ran. -/
structure JobState (O : Type) where
  commandId : String
  status : JobStatus
  startedAt : Option Nat := none
  finishedAt : Option Nat := none
  result : Option O := none
  error : Option (ErrCode × String) := none
  logs : List LogEntry := []
  started : Bool := false
  timedOut : Bool := false
  timerFired : Bool := false
  timerCleared : Bool := false
  bodySettled : Bool := false

/-- The job as `runCommand` creates it (`status: "queued"`, empty log). -/
def initJob (O : Type) (cid : String) : JobState O :=
  { commandId := cid, status := JobStatus.queued }

/-- Atomic events of one job's execution. -/
inductive JobEv (O : Type) where
  | startRun (t : Nat)
  | timerFire (t : Nat)
  | bodyResolve (t : Nat) (v : O)
  | bodyReject (t : Nat) (msg : String)
  | cancel (t : Nat)

/-- Log message of `executeJob`'s opening segment. -/
def runningMsg (cid : String) : String := "Running command " ++ cid

/-- Error message written by the timeout timer callback. -/
def timeoutMsg (cid : String) : String := "Command " ++ cid ++ " timed out"

/-- One atomic segment.  Each branch mirrors the corresponding lines of
`command-runner.ts`:
* `startRun` — lines 103-105 (status to `running`, start stamp, info log);
* `timerFire` — lines 109-120 (set `timedOut`, and only if still `running`
  commit the `failed`/`TIMEOUT` terminal state);
* `bodyResolve` — lines 123-132 (early return when `timedOut`, else clear
  the timer and commit `success`);
* `bodyReject` — lines 133-144 (early return when `timedOut`, else commit
  `failed`/`RUNTIME_ERROR`);
* `cancel` — `cancelJob`, lines 43-56 (mutates only while `queued` or
  `running`). -/
def step {O : Type} (s : JobState O) : JobEv O → Option (JobState O)
  | JobEv.startRun t =>
      if s.started then none else
      some { s with
        started := true, status := JobStatus.running, startedAt := some t,
        logs := s.logs ++ [⟨t, LogLevel.info, runningMsg s.commandId⟩] }
  | JobEv.timerFire t =>
      if s.started && !s.timerFired && !s.timerCleared then
        let s1 := { s with timerFired := true, timedOut := true }
        if s.status = JobStatus.running then
          some { s1 with
            status := JobStatus.failed, finishedAt := some t,
            error := some (ErrCode.TIMEOUT, timeoutMsg s.commandId),
            logs := s1.logs ++ [⟨t, LogLevel.error, "Timeout"⟩] }
        else some s1
      else none
  | JobEv.bodyResolve t v =>
      if s.started && !s.bodySettled then
        let s1 := { s with bodySettled := true }
        if s.timedOut then some s1 else
        some { s1 with
          timerCleared := true, status := JobStatus.success,
          finishedAt := some t, result := some v,
          logs := s1.logs ++ [⟨t, LogLevel.info, "Command completed successfully"⟩] }
      else none
  | JobEv.bodyReject t m =>
      if s.started && !s.bodySettled then
        let s1 := { s with bodySettled := true }
        if s.timedOut then some s1 else
        some { s1 with
          timerCleared := true, status := JobStatus.failed,
          finishedAt := some t, error := some (ErrCode.RUNTIME_ERROR, m),
          logs := s1.logs ++ [⟨t, LogLevel.error, m⟩] }
      else none
  | JobEv.cancel t =>
      if s.status = JobStatus.queued ∨ s.status = JobStatus.running then
        some { s with
          status := JobStatus.cancelled, finishedAt := some t,
          logs := s.logs ++ [⟨t, LogLevel.warn, "Job cancelled by user"⟩] }
      else some s

/-- Run a trace of events from a state; `none` when some event is invalid. -/
def runJob {O : Type} (s : JobState O) : List (JobEv O) → Option (JobState O)
  | [] => some s
  | e :: es =>
      match step s e with
      | none => none
      | some s' => runJob s' es

/-- Does a trace contain a `cancel` event? -/
def hasCancel {O : Type} : List (JobEv O) → Bool
  | [] => false
  | JobEv.cancel _ :: _ => true
  | _ :: es => hasCancel es

/-! ## Backup timestamps (`config-service.ts` line 220)

`createBackup` names the backup directory
`new Date().toISOString().replace(/[:.]/g, "-")`.  A `Date` in the
`toISOString` fixed-width range is a calendar tuple; chronological order is
lexicographic order on the tuple.  `toISOString` always emits the 24-char
`YYYY-MM-DDTHH:MM:SS.mmmZ` form for years below 10000. -/

/-- A calendar instant at millisecond resolution, as rendered by
`Date.prototype.toISOString`. -/
structure DateTime where
  year : Nat
  month : Nat
  day : Nat
  hour : Nat
  minute : Nat
  second : Nat
  ms : Nat
deriving DecidableEq, Repr

/-- Field bounds under which `toISOString` emits fixed-width components. -/
def DateTime.wf (t : DateTime) : Prop :=
  t.year < 10000 ∧ t.month < 100 ∧ t.day < 100 ∧ t.hour < 100 ∧
    t.minute < 100 ∧ t.second < 100 ∧ t.ms < 1000

instance (t : DateTime) : Decidable t.wf := by
  unfold DateTime.wf
  infer_instance

/-- Chronological (strict) order: lexicographic on the calendar tuple. -/
def DateTime.lt (a b : DateTime) : Prop :=
  a.year < b.year ∨ (a.year = b.year ∧
    (a.month < b.month ∨ (a.month = b.month ∧
      (a.day < b.day ∨ (a.day = b.day ∧
        (a.hour < b.hour ∨ (a.hour = b.hour ∧
          (a.minute < b.minute ∨ (a.minute = b.minute ∧
            (a.second < b.second ∨ (a.second = b.second ∧
              a.ms < b.ms)))))))))))

instance (a b : DateTime) : Decidable (DateTime.lt a b) := by
  unfold DateTime.lt
  infer_instance

/-- `t1` is no later than `t2`. -/
def DateTime.le (a b : DateTime) : Prop := a = b ∨ DateTime.lt a b

/-- The decimal digit character for `d ≤ 9`. -/
def digitChar (d : Nat) : Char := Char.ofNat (48 + d)

/-- Zero-padded fixed-width decimal digits, most significant first; for
`n < 10 ^ w` this is exactly `String(n).padStart(w, "0")`. -/
def padDigits : Nat → Nat → List Char
  | 0, _ => []
  | w + 1, n => digitChar (n / 10 ^ w) :: padDigits w (n % 10 ^ w)

/-- `Date.prototype.toISOString` (fixed-width range), as characters. -/
def isoChars (t : DateTime) : List Char :=
  padDigits 4 t.year ++ '-' ::
    (padDigits 2 t.month ++ '-' ::
      (padDigits 2 t.day ++ 'T' ::
        (padDigits 2 t.hour ++ ':' ::
          (padDigits 2 t.minute ++ ':' ::
            (padDigits 2 t.second ++ '.' ::
              (padDigits 3 t.ms ++ ['Z']))))))

/-- The `.replace(/[:.]/g, "-")` character substitution. -/
def replChar (c : Char) : Char := if c = ':' ∨ c = '.' then '-' else c

/-- Backup directory name characters (`config-service.ts` line 220). -/
def backupNameChars (t : DateTime) : List Char := (isoChars t).map replChar


/-! ## JSON values (`JSON.stringify(data, null, 2)` / `JSON.parse`)

`config-service.ts` serializes with `JSON.stringify(data, null, 2) + "\n"`
and reads with `JSON.parse`.  Values are modelled with integer numbers
(IEEE-754 fractional formatting is outside the model); object entries keep
insertion order, as JavaScript objects do. -/

/-- A JSON value.  Strings are unicode-scalar character lists (lone UTF-16
surrogates are outside the model). -/
inductive Json where
  | null
  | bool (b : Bool)
  | num (n : Int)
  | str (s : List Char)
  | arr (xs : List Json)
  | obj (es : List (List Char × Json))

/-- `"{"` — kept out of character-literal position. -/
def lbrace : Char := Char.ofNat 123

/-- `"}"` — kept out of character-literal position. -/
def rbrace : Char := Char.ofNat 125

/-- Two-space indentation of depth `d` (the `2` of `JSON.stringify`). -/
def ind (d : Nat) : List Char := List.replicate (2 * d) ' '

/-- Lowercase hex digit. -/
def hexChar (d : Nat) : Char :=
  if d < 10 then digitChar d else Char.ofNat (97 + (d - 10))

/-- `JSON.stringify`'s escaping of one string character: `"` and `\` get a
backslash, the five named control escapes are used where they exist, any
other char below U+0020 becomes `\u00XX`, everything else is literal. -/
def escChar (c : Char) : List Char :=
  if c = '"' then ['\\', '"']
  else if c = '\\' then ['\\', '\\']
  else if c = Char.ofNat 8 then ['\\', 'b']
  else if c = Char.ofNat 9 then ['\\', 't']
  else if c = Char.ofNat 10 then ['\\', 'n']
  else if c = Char.ofNat 12 then ['\\', 'f']
  else if c = Char.ofNat 13 then ['\\', 'r']
  else if c.toNat < 32 then
    ['\\', 'u', '0', '0', hexChar (c.toNat / 16), hexChar (c.toNat % 16)]
  else [c]

/-- Escape a whole string body. -/
def escChars : List Char → List Char
  | [] => []
  | c :: cs => escChar c ++ escChars cs

/-- Decimal digits of `n`, accumulator form. -/
def natDigsAux (n : Nat) (acc : List Char) : List Char :=
  if n < 10 then digitChar n :: acc
  else natDigsAux (n / 10) (digitChar (n % 10) :: acc)
termination_by n
decreasing_by exact Nat.div_lt_self (by omega) (by omega)

/-- Fuel-bounded digits loop, structurally recursive so that decimal
renderings reduce inside the kernel; `natDigsF (n + 1) n acc` agrees with
`natDigsAux n acc`. -/
def natDigsF : Nat → Nat → List Char → List Char
  | 0, _, acc => acc
  | fuel + 1, n, acc =>
      if n < 10 then digitChar n :: acc
      else natDigsF fuel (n / 10) (digitChar (n % 10) :: acc)

/-- Decimal digits of a natural number. -/
def natChars (n : Nat) : List Char := natDigsF (n + 1) n []

/-- Decimal rendering of an integer (`String(n)` for integer values). -/
def intChars : Int → List Char
  | Int.ofNat n => natChars n
  | Int.negSucc m => '-' :: natChars (m + 1)

mutual

/-- `JSON.stringify(x, null, 2)` at indentation depth `d`, as characters. -/
def sJson (d : Nat) : Json → List Char
  | Json.null => ['n', 'u', 'l', 'l']
  | Json.bool true => ['t', 'r', 'u', 'e']
  | Json.bool false => ['f', 'a', 'l', 's', 'e']
  | Json.num n => intChars n
  | Json.str s => '"' :: (escChars s ++ ['"'])
  | Json.arr [] => ['[', ']']
  | Json.arr (x :: xs) =>
      '[' :: '\n' ::
        (ind (d + 1) ++ sJson (d + 1) x ++ sItemsTail (d + 1) xs ++
          '\n' :: (ind d ++ [']']))
  | Json.obj [] => [lbrace, rbrace]
  | Json.obj (e :: es) =>
      lbrace :: '\n' ::
        (ind (d + 1) ++ sEntry (d + 1) e ++ sEntriesTail (d + 1) es ++
          '\n' :: (ind d ++ [rbrace]))

/-- `",\n" + indent + item` for each further array element. -/
def sItemsTail (d : Nat) : List Json → List Char
  | [] => []
  | y :: ys => ',' :: '\n' :: (ind d ++ sJson d y ++ sItemsTail d ys)

/-- `"key": value` for one object entry. -/
def sEntry (d : Nat) : List Char × Json → List Char
  | (k, v) => '"' :: (escChars k ++ '"' :: ':' :: ' ' :: sJson d v)

/-- `",\n" + indent + entry` for each further object entry. -/
def sEntriesTail (d : Nat) : List (List Char × Json) → List Char
  | [] => []
  | e :: es => ',' :: '\n' :: (ind d ++ sEntry d e ++ sEntriesTail d es)

end

/-- The on-disk content `writeConfig` produces: pretty JSON plus `"\n"`. -/
def stringifyDoc (x : Json) : List Char := sJson 0 x ++ ['\n']

mutual

/-- Parser fuel weight of a value (one unit per parser recursion; strings
additionally need one unit per decoded character). -/
def wJson : Json → Nat
  | Json.null => 1
  | Json.bool _ => 1
  | Json.num _ => 1
  | Json.str s => 2 + s.length
  | Json.arr xs => 1 + wItems xs
  | Json.obj es => 1 + wEntries es

/-- Fuel weight of an array tail. -/
def wItems : List Json → Nat
  | [] => 1
  | x :: xs => 1 + wJson x + wItems xs

/-- Fuel weight of an object tail. -/
def wEntries : List (List Char × Json) → Nat
  | [] => 1
  | e :: es => 2 + e.1.length + wJson e.2 + wEntries es

end

/-- JSON whitespace (`JSON.parse` skips these between tokens). -/
def isWsc (c : Char) : Bool :=
  c = ' ' || c = '\n' || c = '\t' || c = '\r'

/-- ASCII decimal digit test. -/
def isDigitc (c : Char) : Bool := 48 ≤ c.toNat && c.toNat ≤ 57

/-- Digit value. -/
def dval (c : Char) : Nat := c.toNat - 48

/-- Drop leading JSON whitespace. -/
def skipWs : List Char → List Char
  | [] => []
  | c :: cs => if isWsc c then skipWs cs else c :: cs

/-- Consume a maximal run of digits, accumulating the value. -/
def digitsLoop (acc : Nat) : List Char → Nat × List Char
  | [] => (acc, [])
  | c :: cs =>
      if isDigitc c then digitsLoop (acc * 10 + dval c) cs else (acc, c :: cs)

/-- Parse a nonempty digit run. -/
def parseNat : List Char → Option (Nat × List Char)
  | [] => none
  | c :: cs => if isDigitc c then some (digitsLoop (dval c) cs) else none

/-- Hex digit value (`JSON.parse` accepts both cases in `\uXXXX`). -/
def hexVal (c : Char) : Option Nat :=
  if 48 ≤ c.toNat ∧ c.toNat ≤ 57 then some (c.toNat - 48)
  else if 97 ≤ c.toNat ∧ c.toNat ≤ 102 then some (c.toNat - 87)
  else if 65 ≤ c.toNat ∧ c.toNat ≤ 70 then some (c.toNat - 55)
  else none

/-- Decode the four hex digits of a `\uXXXX` escape; scalar values in the
UTF-16 surrogate range are rejected (such strings are outside the model). -/
def decodeU : List Char → Option (Char × List Char)
  | h1 :: h2 :: h3 :: h4 :: cs3 =>
      match hexVal h1, hexVal h2, hexVal h3, hexVal h4 with
      | some a, some b, some c3, some d4 =>
          if ((a * 16 + b) * 16 + c3) * 16 + d4 < 55296 ∨
              57343 < ((a * 16 + b) * 16 + c3) * 16 + d4 then
            some (Char.ofNat (((a * 16 + b) * 16 + c3) * 16 + d4), cs3)
          else none
      | _, _, _, _ => none
  | _ => none

/-- Decode one escape sequence after a backslash, returning the decoded
character and the remaining input. -/
def escDecode : List Char → Option (Char × List Char)
  | [] => none
  | e :: cs2 =>
      if e = '"' then some ('"', cs2)
      else if e = '\\' then some ('\\', cs2)
      else if e = '/' then some ('/', cs2)
      else if e = 'b' then some (Char.ofNat 8, cs2)
      else if e = 'f' then some (Char.ofNat 12, cs2)
      else if e = 'n' then some (Char.ofNat 10, cs2)
      else if e = 'r' then some (Char.ofNat 13, cs2)
      else if e = 't' then some (Char.ofNat 9, cs2)
      else if e = 'u' then decodeU cs2
      else none

/-- Parse a JSON string body after the opening quote, returning the decoded
characters and the input after the closing quote.  Escapes mirror
`JSON.parse`; fuel bounds the number of decoded characters. -/
def parseStr : Nat → List Char → Option (List Char × List Char)
  | 0, _ => none
  | fuel + 1, cs =>
      match cs with
      | [] => none
      | c :: cs1 =>
          if c = '"' then some ([], cs1)
          else if c = '\\' then
            match escDecode cs1 with
            | some (ch, cs2) =>
                (parseStr fuel cs2).map fun p => (ch :: p.1, p.2)
            | none => none
          else if c.toNat < 32 then none
          else (parseStr fuel cs1).map fun p => (c :: p.1, p.2)

/-- The tail of the `null` literal. -/
def parseNull (rest : List Char) : Option (Json × List Char) :=
  match rest with
  | 'u' :: 'l' :: 'l' :: r => some (Json.null, r)
  | _ => none

/-- The tail of the `true` literal. -/
def parseTrue (rest : List Char) : Option (Json × List Char) :=
  match rest with
  | 'r' :: 'u' :: 'e' :: r => some (Json.bool true, r)
  | _ => none

/-- The tail of the `false` literal. -/
def parseFalse (rest : List Char) : Option (Json × List Char) :=
  match rest with
  | 'a' :: 'l' :: 's' :: 'e' :: r => some (Json.bool false, r)
  | _ => none

mutual

/-- Recursive-descent `JSON.parse` of one value, fuel-bounded. -/
def parseVal : Nat → List Char → Option (Json × List Char)
  | 0, _ => none
  | fuel + 1, cs =>
      match skipWs cs with
      | [] => none
      | c :: rest =>
          if c = 'n' then parseNull rest
          else if c = 't' then parseTrue rest
          else if c = 'f' then parseFalse rest
          else if c = '"' then
            (parseStr fuel rest).map fun p => (Json.str p.1, p.2)
          else if c = '-' then
            (parseNat rest).map fun p => (Json.num (-(p.1 : Int)), p.2)
          else if c = '[' then
            match skipWs rest with
            | [] => none
            | c2 :: r2 =>
                if c2 = ']' then some (Json.arr [], r2)
                else (parseItems fuel (c2 :: r2)).map
                  fun p => (Json.arr p.1, p.2)
          else if c = lbrace then
            match skipWs rest with
            | [] => none
            | c2 :: r2 =>
                if c2 = rbrace then some (Json.obj [], r2)
                else (parseEntries fuel (c2 :: r2)).map
                  fun p => (Json.obj p.1, p.2)
          else if isDigitc c then
            (parseNat (c :: rest)).map fun p => (Json.num (p.1 : Int), p.2)
          else none
termination_by structural fuel => fuel

/-- One or more comma-separated array items up to `]`. -/
def parseItems : Nat → List Char → Option (List Json × List Char)
  | 0, _ => none
  | fuel + 1, cs =>
      match parseVal fuel cs with
      | none => none
      | some (v, rest) =>
          match skipWs rest with
          | [] => none
          | c :: r2 =>
              if c = ',' then
                (parseItems fuel r2).map fun p => (v :: p.1, p.2)
              else if c = ']' then some ([v], r2)
              else none
termination_by structural fuel => fuel

/-- One or more `"key": value` entries up to the closing brace. -/
def parseEntries : Nat → List Char → Option (List (List Char × Json) × List Char)
  | 0, _ => none
  | fuel + 1, cs =>
      match skipWs cs with
      | [] => none
      | c :: r =>
          if c = '"' then
            match parseStr fuel r with
            | none => none
            | some (k, r2) =>
                match skipWs r2 with
                | [] => none
                | c2 :: r3 =>
                    if c2 = ':' then
                      match parseVal fuel r3 with
                      | none => none
                      | some (v, r4) =>
                          match skipWs r4 with
                          | [] => none
                          | c3 :: r5 =>
                              if c3 = ',' then
                                (parseEntries fuel r5).map
                                  fun p => ((k, v) :: p.1, p.2)
                              else if c3 = rbrace then some ([(k, v)], r5)
                              else none
                    else none
          else none
termination_by structural fuel => fuel

end

/-- `JSON.parse` of a whole document: one value, then only trailing
whitespace.  The fuel `cs.length + 1` bounds the recursion depth. -/
def parseDoc (cs : List Char) : Option Json :=
  match parseVal (cs.length + 1) cs with
  | some (v, rest) => if skipWs rest = [] then some v else none
  | none => none

/-- Input that cannot extend a just-parsed number: empty, or starting with
a non-digit.  Everything `stringifyDoc` places after a value satisfies
this. -/
def restOk (rest : List Char) : Prop :=
  ∀ c l, rest = c :: l → isDigitc c = false

/-! ## Configuration store (`config-service.ts`)

The file system is an association list from structured paths to contents
(`join` on the fixed config dir,  `<path>.tmp`, and
`commander-backups/<timestamp>/<filename>` are injective on these shapes,
so the path structure replaces raw strings).  A `set` conses, a `get` takes
the first binding, matching map/overwrite semantics.  The read cache is the
`configCache` map with absolute expiry instants. -/

/-- `ConfigSource` (`config-service.ts` lines 18-22). -/
inductive ConfigSource where
  | codexMultiAccountAccounts
  | anthropicMultiAccountState
  | antigravityAccounts
  | opencode
deriving DecidableEq, Repr

/-- `SOURCE_FILENAMES` (`config-service.ts` lines 39-44). -/
def sourceFilename : ConfigSource → String
  | ConfigSource.codexMultiAccountAccounts => "codex-multi-account-accounts.json"
  | ConfigSource.anthropicMultiAccountState => "anthropic-multi-account-state.json"
  | ConfigSource.antigravityAccounts => "antigravity-accounts.json"
  | ConfigSource.opencode => "opencode.json"

/-- Structured file paths: the live config file of a source, its `.tmp`
sibling, and `commander-backups/<timestamp-name>/<filename>`. -/
inductive FPath where
  | cfg (s : ConfigSource)
  | tmp (s : ConfigSource)
  | backup (ts : List Char) (s : ConfigSource)
deriving DecidableEq, Repr

/-- File-system contents at a path (first binding wins). -/
def fsGet (fs : List (FPath × List Char)) (p : FPath) : Option (List Char) :=
  (fs.find? fun kv => decide (kv.1 = p)).map (·.2)

/-- Create or overwrite a file. -/
def fsSet (fs : List (FPath × List Char)) (p : FPath) (v : List Char) :
    List (FPath × List Char) :=
  (p, v) :: fs

/-- Remove a file (the unlink half of `rename`). -/
def fsDel (fs : List (FPath × List Char)) (p : FPath) :
    List (FPath × List Char) :=
  fs.filter fun kv => !decide (kv.1 = p)

/-- `rename(tmp, dst)`: move the tmp file's content over the target. -/
def fsRename (fs : List (FPath × List Char)) (src dst : FPath) :
    List (FPath × List Char) :=
  match fsGet fs src with
  | some c => fsSet (fsDel fs src) dst c
  | none => fs

/-- The typed configuration error (`ConfigError`, lines 258-265). -/
structure ConfigError where
  message : String
  status : Nat
deriving DecidableEq, Repr

/-- The 404 thrown when the config file is absent (line 156). -/
def notFoundErr : ConfigError := ⟨"Config file not found", 404⟩

/-- The 422 thrown when the file exists but is not JSON (lines 164-167). -/
def invalidErr : ConfigError := ⟨"Config file is not valid JSON", 422⟩

/-- The 404 thrown by rollback when no backup exists (line 201). -/
def noBackupErr : ConfigError := ⟨"No backup found for source", 404⟩

/-- Error for an impossible copy of a vanished backup (dead branch kept so
the embedding stays total). -/
def copyErr : ConfigError := ⟨"Backup copy failed", 500⟩

/-- `CONFIG_CACHE_TTL` (line 90). -/
def cacheTtl : Nat := 2000

/-- The mutable module state of `config-service.ts`: disk plus read cache.
Cache entries carry the parsed value and an absolute expiry instant. -/
structure Store where
  fs : List (FPath × List Char)
  cache : List (FPath × Json × Nat)

/-- `getCached` (lines 93-97): first binding, honoured only before expiry. -/
def cacheGet (cache : List (FPath × Json × Nat)) (p : FPath) (now : Nat) :
    Option Json :=
  match cache.find? fun kv => decide (kv.1 = p) with
  | some (_, d, exp) => if now < exp then some d else none
  | none => none

/-- `setCache` (lines 99-101). -/
def cacheSet (cache : List (FPath × Json × Nat)) (p : FPath) (d : Json)
    (now : Nat) : List (FPath × Json × Nat) :=
  (p, d, now + cacheTtl) :: cache

/-- `invalidateCache` (lines 103-106). -/
def cacheDel (cache : List (FPath × Json × Nat)) (p : FPath) :
    List (FPath × Json × Nat) :=
  cache.filter fun kv => !decide (kv.1 = p)

/-- `readConfig` (lines 145-169): cache hit, else read and parse the file,
caching a successful parse.  `now` is `Date.now()` during the call. -/
def readConfig (src : ConfigSource) (st : Store) (now : Nat) :
    Except ConfigError Json × Store :=
  let path := FPath.cfg src
  match cacheGet st.cache path now with
  | some d => (Except.ok d, st)
  | none =>
      match fsGet st.fs path with
      | none => (Except.error notFoundErr, st)
      | some raw =>
          match parseDoc raw with
          | none => (Except.error invalidErr, st)
          | some v =>
              (Except.ok v, { st with cache := cacheSet st.cache path v now })

/-- `createBackup` (lines 218-234): snapshot the current file into
`commander-backups/<name>/<filename>`, or write the `"null\n"` sentinel
when there is no current file.  Returns the backup file path. -/
def createBackup (src : ConfigSource) (fs : List (FPath × List Char))
    (t : DateTime) : FPath × List (FPath × List Char) :=
  let bf := FPath.backup (backupNameChars t) src
  match fsGet fs (FPath.cfg src) with
  | some c => (bf, fsSet fs bf c)
  | none => (bf, fsSet fs bf ['n', 'u', 'l', 'l', '\n'])

/-- `writeConfig` (lines 174-191): backup, write tmp, atomic rename,
invalidate the cache entry.  `t` is the wall clock at the call. -/
def writeConfig (src : ConfigSource) (x : Json) (st : Store) (t : DateTime) :
    FPath × Store :=
  let bk := createBackup src st.fs t
  let fs2 := fsSet bk.2 (FPath.tmp src) (stringifyDoc x)
  let fs3 := fsRename fs2 (FPath.tmp src) (FPath.cfg src)
  (bk.1, { fs := fs3, cache := cacheDel st.cache (FPath.cfg src) })

/-- The timestamp-directory name of a backup binding, if it is one. -/
def bname (kv : FPath × List Char) : Option (List Char) :=
  match kv.1 with
  | FPath.backup ts _ => some ts
  | _ => none

/-- Timestamp directory names present under `commander-backups`
(`readdir(BACKUP_ROOT)`). -/
def backupDirs (fs : List (FPath × List Char)) : List (List Char) :=
  (fs.filterMap bname).dedup

/-- JavaScript's default lexicographic string order on ASCII names. -/
def nameLe (a b : List Char) : Prop := ¬ b < a

instance : DecidableRel nameLe := fun _ _ => instDecidableNot

instance : IsTotal (List Char) nameLe :=
  ⟨fun a b => (le_total a b).imp (fun h => not_lt.mpr h)
    (fun h => not_lt.mpr h)⟩

instance : IsTrans (List Char) nameLe :=
  ⟨fun _ _ _ h1 h2 => not_lt.mpr (le_trans (not_lt.mp h1) (not_lt.mp h2))⟩

/-- `entries.sort()`. -/
def sortNames (l : List (List Char)) : List (List Char) :=
  List.insertionSort nameLe l

/-- `findLatestBackup` (lines 236-252): sort the timestamp directories,
walk backwards, return the first directory holding a file for `src`. -/
def findLatestBackup (src : ConfigSource) (fs : List (FPath × List Char)) :
    Option FPath :=
  ((sortNames (backupDirs fs)).reverse.find? fun ts =>
      (fsGet fs (FPath.backup ts src)).isSome).map
    fun ts => FPath.backup ts src

/-- `rollbackConfig` (lines 196-212): restore the latest backup via
copy-to-tmp plus atomic rename.  Note: unlike `writeConfig`, the read
cache is *not* invalidated here — this is faithful to the source. -/
def rollbackConfig (src : ConfigSource) (st : Store) :
    Except ConfigError (FPath × Store) :=
  match findLatestBackup src st.fs with
  | none => Except.error noBackupErr
  | some bf =>
      match fsGet st.fs bf with
      | none => Except.error copyErr
      | some c =>
          let fs2 := fsSet st.fs (FPath.tmp src) c
          let fs3 := fsRename fs2 (FPath.tmp src) (FPath.cfg src)
          Except.ok (bf, { fs := fs3, cache := st.cache })

/-! ## The bunx invocation queue (`plugin-adapters.ts` lines 449-501)

`spawnPluginCli` with no local binary chains every call for the same
command onto a per-command promise (`bunxQueue`): the new call's
`runPluginCli` starts only once the previous chained promise has settled
(rejections swallowed by `.catch`), and the map is updated to the new
call's completion.  The model tracks, for one command name, the arrival
order of callers (which fixes each caller's predecessor, i.e. the queue
entry it chained on), which callers' processes have launched, and which
have settled.  `qstep` returns `none` for events that cannot occur. -/

/-- State of the per-command queue with its callers. -/
structure QState where
  order : List Nat
  launched : List Nat
  settledL : List Nat
deriving DecidableEq, Repr

/-- No caller has arrived, the queue map is empty. -/
def qInit : QState := ⟨[], [], []⟩

/-- The predecessor a caller chained on: `some none` when it was first in
the queue, `some (some j)` when it chained on caller `j`, `none` when it
has not arrived. -/
def depIn : List Nat → Nat → Option (Option Nat)
  | [], _ => none
  | x :: xs, i =>
      if x = i then some none
      else (depIn xs i).map fun d => some (d.getD x)

/-- Queue events: a caller arrives (runs the synchronous chaining segment
of `spawnPluginCli`), its `runPluginCli` launches, its launch settles. -/
inductive QEv where
  | arrive (i : Nat)
  | launch (i : Nat)
  | settle (i : Nat)

/-- One atomic queue step.  A launch requires the chained-on predecessor to
have settled (`prev.catch(() => {}).then(() => runPluginCli(...))`);
arrival appends to the chain (`bunxQueue.set(command, run...)`). -/
def qstep (s : QState) : QEv → Option QState
  | QEv.arrive i =>
      if i ∈ s.order then none
      else some { s with order := s.order ++ [i] }
  | QEv.launch i =>
      match depIn s.order i with
      | none => none
      | some dep =>
          if i ∈ s.launched then none
          else
            match dep with
            | none => some { s with launched := i :: s.launched }
            | some j =>
                if j ∈ s.settledL then some { s with launched := i :: s.launched }
                else none
  | QEv.settle i =>
      if i ∈ s.launched ∧ i ∉ s.settledL then
        some { s with settledL := i :: s.settledL }
      else none

/-- Run a queue trace. -/
def qrun (s : QState) : List QEv → Option QState
  | [] => some s
  | e :: es =>
      match qstep s e with
      | none => none
      | some s' => qrun s' es

/-- A caller whose process has launched but not settled. -/
def inFlight (s : QState) (i : Nat) : Prop :=
  i ∈ s.launched ∧ i ∉ s.settledL

instance (s : QState) (i : Nat) : Decidable (inFlight s i) := by
  unfold inFlight
  infer_instance

/-- `k` occurs strictly before `i` in `l`. -/
def earlier : List Nat → Nat → Nat → Prop
  | [], _, _ => False
  | x :: xs, k, i => (x = k ∧ i ∈ xs) ∨ earlier xs k i

/-- Reachability invariant of the queue: callers are distinct, settling
implies having launched, launching implies having arrived, and everything
queued before a launched caller has already settled. -/
def QInv (s : QState) : Prop :=
  s.order.Nodup ∧ (∀ i ∈ s.settledL, i ∈ s.launched) ∧
  (∀ i ∈ s.launched, i ∈ s.order) ∧
  (∀ j ∈ s.launched, ∀ m, earlier s.order m j → m ∈ s.settledL)

/-! # Theorems -/

/-! ## Registry and `runCommand` (claims C3, C8) -/

/-- C3: a payload rejected by the command's validator makes `runCommand`
fail synchronously with the validator's error and leaves the runner state —
in particular the job store — untouched (no `CommandJob` is inserted, no
job id is returned); an unknown command id likewise fails synchronously
with the unknown-command error and creates no job. -/
theorem C3_invalid_submit_creates_no_job {P I R : Type}
    (st : RunnerState P I R) (cid : String) (payload : P) :
    (lookupReg st.registry cid = none →
      runCommand cid payload st =
        (Except.error (RunError.unknownCommand cid), st)) ∧
    (∀ (spec : CommandSpec P I R) (e : String),
      lookupReg st.registry cid = some spec →
      spec.validateInput payload = Except.error e →
      runCommand cid payload st =
        (Except.error (RunError.validation e), st)) := by
  constructor
  · intro h
    simp only [runCommand, h]
  · intro spec e h hv
    simp only [runCommand, h, runFound, hv]

/-- Witness for C3 at a concrete registry: a one-command registry whose
validator rejects everything, exercised on a bad payload and on an unknown
id. -/
theorem C3_invalid_submit_creates_no_job_witness :
    runCommand "echo" (0 : Nat)
        (⟨[("echo", ⟨"echo", fun _ => Except.error "bad payload", (0 : Nat),
            5000, true⟩)], [], 0⟩ : RunnerState Nat Nat Nat) =
      (Except.error (RunError.validation "bad payload"),
        ⟨[("echo", ⟨"echo", fun _ => Except.error "bad payload", (0 : Nat),
            5000, true⟩)], [], 0⟩) ∧
    runCommand "nope" (0 : Nat)
        (⟨[("echo", ⟨"echo", fun _ => Except.error "bad payload", (0 : Nat),
            5000, true⟩)], [], 0⟩ : RunnerState Nat Nat Nat) =
      (Except.error (RunError.unknownCommand "nope"),
        ⟨[("echo", ⟨"echo", fun _ => Except.error "bad payload", (0 : Nat),
            5000, true⟩)], [], 0⟩) :=
  ⟨(C3_invalid_submit_creates_no_job _ "echo" 0).2 _ "bad payload" rfl rfl,
    (C3_invalid_submit_creates_no_job _ "nope" 0).1 rfl⟩

/-- C8: registering a second spec under an id already present fails with
the registration error and returns the registry unchanged, and later
`runCommand` calls for that id still dispatch on the originally registered
spec (its validator, run body and timeout). -/
theorem C8_duplicate_registration_rejected {P I R : Type}
    (reg : List (String × CommandSpec P I R)) (s1 s2 : CommandSpec P I R)
    (h1 : lookupReg reg s1.id = some s1) (h2 : s2.id = s1.id) :
    registerCommand s2 reg =
      (Except.error ("Command \"" ++ s2.id ++ "\" is already registered"),
        reg) ∧
    ∀ (payload : P) (jobs : List (String × StoredJob)) (n : Nat),
      runCommand s1.id payload ⟨reg, jobs, n⟩ =
        runFound s1.id s1 payload ⟨reg, jobs, n⟩ := by
  have hfind : (reg.find? fun kv => decide (kv.1 = s2.id)).isSome := by
    rw [h2]
    unfold lookupReg at h1
    cases hf : reg.find? fun kv => decide (kv.1 = s1.id) with
    | none => rw [hf] at h1; exact absurd h1 (by simp)
    | some kv => simp [hf]
  constructor
  · unfold registerCommand
    rw [if_pos hfind]
  · intro payload jobs n
    unfold runCommand
    simp only
    rw [h1]

/-- Witness for C8: a concrete registry holding `"deploy"`, a duplicate
registration attempt with a different timeout, and a dispatch. -/
theorem C8_duplicate_registration_rejected_witness :
    registerCommand
        (⟨"deploy", fun p => Except.ok p, (2 : Nat), 9999, false⟩ :
          CommandSpec Nat Nat Nat)
        [("deploy", ⟨"deploy", fun p => Except.ok p, (1 : Nat), 1000, true⟩)] =
      (Except.error "Command \"deploy\" is already registered",
        [("deploy", ⟨"deploy", fun p => Except.ok p, (1 : Nat), 1000, true⟩)]) ∧
    runCommand "deploy" (7 : Nat)
        (⟨[("deploy", ⟨"deploy", fun p => Except.ok p, (1 : Nat), 1000, true⟩)],
          [], 0⟩ : RunnerState Nat Nat Nat) =
      runFound "deploy"
        ⟨"deploy", fun p => Except.ok p, (1 : Nat), 1000, true⟩ (7 : Nat)
        ⟨[("deploy", ⟨"deploy", fun p => Except.ok p, (1 : Nat), 1000, true⟩)],
          [], 0⟩ := by
  have h := C8_duplicate_registration_rejected
    [("deploy",
      (⟨"deploy", fun p => Except.ok p, (1 : Nat), 1000, true⟩ :
        CommandSpec Nat Nat Nat))]
    (⟨"deploy", fun p => Except.ok p, (1 : Nat), 1000, true⟩ :
      CommandSpec Nat Nat Nat)
    (⟨"deploy", fun p => Except.ok p, (2 : Nat), 9999, false⟩ :
      CommandSpec Nat Nat Nat) rfl rfl
  exact ⟨h.1, h.2 7 [] 0⟩

/-! ## Job execution traces (claims C1, C2) -/

/-- Unfolding step for `runJob` on a cons trace. -/
theorem runJob_cons {O : Type} (s : JobState O) (e : JobEv O)
    (es : List (JobEv O)) :
    runJob s (e :: es) = (step s e).bind fun s' => runJob s' es := by
  cases h : step s e with
  | none => simp [runJob, h]
  | some s' => simp [runJob, h]

/-- Reduction of a determined first step inside `runJob`'s bind. -/
theorem runJob_some_bind {O : Type} (s1 : JobState O) (es : List (JobEv O))
    (s : JobState O) :
    (((some s1).bind fun a => runJob a es) = some s) ↔
      runJob s1 es = some s :=
  Iff.rfl

/-- `runJob` splits over trace concatenation. -/
theorem runJob_append {O : Type} (l1 l2 : List (JobEv O)) :
    ∀ s : JobState O,
      runJob s (l1 ++ l2) = (runJob s l1).bind fun s' => runJob s' l2 := by
  induction l1 with
  | nil => intro s; rfl
  | cons e es ih =>
      intro s
      rw [List.cons_append, runJob_cons, runJob_cons]
      cases step s e with
      | none => rfl
      | some s' => exact ih s'

/-- Any state reached from a fresh job by a cancel-free trace keeps the
job's command id, and is in one of four shapes: still queued, running with
no timeout and no result, timer cleared, or timer fired.  This is the
reachability invariant behind the timeout race. -/
theorem noCancel_reachable {O : Type} :
    ∀ (tr : List (JobEv O)) (cid : String) (s : JobState O),
      hasCancel tr = false → runJob (initJob O cid) tr = some s →
      s.commandId = cid ∧
      ((s.status = JobStatus.queued ∧ s.started = false ∧
          s.timedOut = false ∧ s.result = none) ∨
        (s.status = JobStatus.running ∧ s.timedOut = false ∧
          s.result = none) ∨
        s.timerCleared = true ∨ s.timerFired = true) := by
  have main : ∀ (tr : List (JobEv O)) (s0 s : JobState O),
      hasCancel tr = false → runJob s0 tr = some s →
      (s0.status = JobStatus.queued ∧ s0.started = false ∧
          s0.timedOut = false ∧ s0.result = none) ∨
        (s0.status = JobStatus.running ∧ s0.timedOut = false ∧
          s0.result = none) ∨
        s0.timerCleared = true ∨ s0.timerFired = true →
      s.commandId = s0.commandId ∧
      ((s.status = JobStatus.queued ∧ s.started = false ∧
          s.timedOut = false ∧ s.result = none) ∨
        (s.status = JobStatus.running ∧ s.timedOut = false ∧
          s.result = none) ∨
        s.timerCleared = true ∨ s.timerFired = true) := by
    intro tr
    induction tr with
    | nil =>
        intro s0 s _ hrun hinv
        cases hrun
        exact ⟨rfl, hinv⟩
    | cons e es ih =>
        intro s0 s hnc hrun hinv
        rw [runJob_cons] at hrun
        cases e with
        | startRun t =>
            simp only [step] at hrun
            split at hrun
            · exact absurd hrun (by simp)
            · rw [runJob_some_bind] at hrun
              have hres := ih _ s (by simpa [hasCancel] using hnc) hrun ?_
              · exact ⟨hres.1, hres.2⟩
              · rcases hinv with ⟨_, _, hto, hr⟩ | ⟨_, hto, hr⟩ | hc | hf
                · exact Or.inr (Or.inl ⟨rfl, hto, hr⟩)
                · exact Or.inr (Or.inl ⟨rfl, hto, hr⟩)
                · exact Or.inr (Or.inr (Or.inl hc))
                · exact Or.inr (Or.inr (Or.inr hf))
        | timerFire t =>
            simp only [step] at hrun
            split at hrun
            · split at hrun
              · rw [runJob_some_bind] at hrun
                have hres := ih _ s (by simpa [hasCancel] using hnc) hrun
                  (Or.inr (Or.inr (Or.inr rfl)))
                exact ⟨hres.1, hres.2⟩
              · rw [runJob_some_bind] at hrun
                have hres := ih _ s (by simpa [hasCancel] using hnc) hrun
                  (Or.inr (Or.inr (Or.inr rfl)))
                exact ⟨hres.1, hres.2⟩
            · exact absurd hrun (by simp)
        | bodyResolve t v =>
            simp only [step] at hrun
            split at hrun
            · split at hrun
              case isTrue hto =>
                rw [runJob_some_bind] at hrun
                have hres := ih _ s (by simpa [hasCancel] using hnc) hrun ?_
                · exact ⟨hres.1, hres.2⟩
                · rcases hinv with ⟨_, _, hto', _⟩ | ⟨_, hto', _⟩ | hc | hf
                  · simp [hto'] at hto
                  · simp [hto'] at hto
                  · exact Or.inr (Or.inr (Or.inl hc))
                  · exact Or.inr (Or.inr (Or.inr hf))
              case isFalse hto =>
                rw [runJob_some_bind] at hrun
                have hres := ih _ s (by simpa [hasCancel] using hnc) hrun
                  (Or.inr (Or.inr (Or.inl rfl)))
                exact ⟨hres.1, hres.2⟩
            · exact absurd hrun (by simp)
        | bodyReject t m =>
            simp only [step] at hrun
            split at hrun
            · split at hrun
              case isTrue hto =>
                rw [runJob_some_bind] at hrun
                have hres := ih _ s (by simpa [hasCancel] using hnc) hrun ?_
                · exact ⟨hres.1, hres.2⟩
                · rcases hinv with ⟨_, _, hto', _⟩ | ⟨_, hto', _⟩ | hc | hf
                  · simp [hto'] at hto
                  · simp [hto'] at hto
                  · exact Or.inr (Or.inr (Or.inl hc))
                  · exact Or.inr (Or.inr (Or.inr hf))
              case isFalse hto =>
                rw [runJob_some_bind] at hrun
                have hres := ih _ s (by simpa [hasCancel] using hnc) hrun
                  (Or.inr (Or.inr (Or.inl rfl)))
                exact ⟨hres.1, hres.2⟩
            · exact absurd hrun (by simp)
        | cancel t =>
            exact absurd hnc (by simp [hasCancel])
  intro tr cid s hnc hrun
  have := main tr (initJob O cid) s hnc hrun
    (Or.inl ⟨rfl, rfl, rfl, rfl⟩)
  exact ⟨this.1, this.2⟩

/-- Once the timer has committed the `failed`/`TIMEOUT` terminal state
(`timedOut` set, timer fired), no further valid event changes the job's
status, result, error or finish stamp. -/
theorem terminal_frozen {O : Type} :
    ∀ (tr : List (JobEv O)) (s s' : JobState O),
      runJob s tr = some s' →
      s.timedOut = true → s.timerFired = true → s.started = true →
      s.status = JobStatus.failed →
      s'.status = s.status ∧ s'.result = s.result ∧ s'.error = s.error ∧
        s'.finishedAt = s.finishedAt := by
  intro tr
  induction tr with
  | nil =>
      intro s s' hrun _ _ _ _
      cases hrun
      exact ⟨rfl, rfl, rfl, rfl⟩
  | cons e es ih =>
      intro s s' hrun hto hfired hstarted hstatus
      rw [runJob_cons] at hrun
      cases e with
      | startRun t =>
          simp only [step, hstarted] at hrun
          exact absurd hrun (by simp)
      | timerFire t =>
          simp only [step, hfired] at hrun
          exact absurd hrun (by simp)
      | bodyResolve t v =>
          simp only [step] at hrun
          split at hrun <;>
            first
              | (rw [runJob_some_bind] at hrun
                 have hres := ih _ s' hrun hto hfired hstarted hstatus
                 exact hres)
              | exact Option.noConfusion hrun
      | bodyReject t m =>
          simp only [step] at hrun
          split at hrun <;>
            first
              | (rw [runJob_some_bind] at hrun
                 have hres := ih _ s' hrun hto hfired hstarted hstatus
                 exact hres)
              | exact Option.noConfusion hrun
      | cancel t =>
          simp only [step, hstatus] at hrun
          simp only [reduceCtorEq, or_self, if_false] at hrun
          rw [runJob_some_bind] at hrun
          have hres := ih _ s' hrun hto hfired hstarted hstatus
          exact hres

/-- C1: evaluation of `executeJob`/`cancelJob` at the failing trace.  A job
is started, cancelled while `running` (terminal state `cancelled`), and then
its run body resolves: the success continuation checks only the executor's
`timedOut` flag (`command-runner.ts` line 126), not the status, so it
overwrites the terminal `cancelled` state with `success` and installs a
result — contradicting the claim (and spec §4.1: "No transitions out of a
terminal state"). -/
theorem C1_cancelled_job_overwritten_by_late_success :
    ((runJob (initJob Nat "demo")
        [JobEv.startRun 0, JobEv.cancel 1]).map fun s => s.status) =
      some JobStatus.cancelled ∧
    ((runJob (initJob Nat "demo")
        [JobEv.startRun 0, JobEv.cancel 1, JobEv.bodyResolve 2 42]).map
          fun s => (s.status, s.result, s.finishedAt)) =
      some (JobStatus.success, some 42, some 2) := by
  constructor
  · rfl
  · rfl

/-- C2 counterexample: a job cancelled while running whose body then fails
to settle before the timer.  The timer callback sees a non-`running` status
and commits nothing, so the job ends `cancelled` with no error — not
`failed` with code `TIMEOUT` as the claim requires for every job whose body
does not settle within `timeoutMs`. -/
theorem C2_cancelled_before_timer_not_timeout :
    ((runJob (initJob Nat "demo")
        [JobEv.startRun 0, JobEv.cancel 1, JobEv.timerFire 5,
          JobEv.bodyReject 6 "boom"]).map
          fun s => (s.status, s.error)) =
      some (JobStatus.cancelled, none) ∧
    JobStatus.cancelled ≠ JobStatus.failed := by
  constructor
  · rfl
  · decide

/-- C2 (amended): for every job that is *not cancelled* before the timer
fires, if the run body does not settle within `timeoutMs` (the trace
reaches the `timerFire` event: a settled body would have cleared the timer)
the job ends `failed` with code `TIMEOUT`, the timer's finish stamp, and no
result — and no later event (the body resolving or rejecting, or a cancel)
mutates status, result, error or finish stamp. -/
theorem C2_timeout_commits_failed_and_freezes {O : Type} (cid : String)
    (pre post : List (JobEv O)) (t : Nat)
    (h1 : hasCancel pre = false)
    (h2 : (runJob (initJob O cid)
        (pre ++ JobEv.timerFire t :: post)).isSome = true) :
    ((runJob (initJob O cid) (pre ++ JobEv.timerFire t :: post)).map
        fun s => (s.status, s.result, s.error, s.finishedAt)) =
      some (JobStatus.failed, none,
        some (ErrCode.TIMEOUT, timeoutMsg cid), some t) := by
  obtain ⟨s, hs⟩ := Option.isSome_iff_exists.mp h2
  rw [hs]
  rw [runJob_append] at hs
  cases h0 : runJob (initJob O cid) pre with
  | none => rw [h0] at hs; exact absurd hs (by simp)
  | some s0 =>
      rw [h0] at hs
      simp only [Option.some_bind] at hs
      rw [runJob_cons] at hs
      cases h1' : step s0 (JobEv.timerFire t) with
      | none => rw [h1'] at hs; exact absurd hs (by simp)
      | some s1 =>
          rw [h1'] at hs
          simp only [Option.some_bind] at hs
          have hreach := noCancel_reachable pre cid s0 h1 h0
          simp only [step] at h1'
          split at h1'
          case isFalse => exact absurd h1' (by simp)
          case isTrue hcond =>
            have hstarted : s0.started = true := by
              rcases Bool.and_eq_true_iff.mp hcond with ⟨hab, _⟩
              exact (Bool.and_eq_true_iff.mp hab).1
            have hnf : s0.timerFired = false := by
              rcases Bool.and_eq_true_iff.mp hcond with ⟨hab, _⟩
              have := (Bool.and_eq_true_iff.mp hab).2
              simpa using this
            have hncl : s0.timerCleared = false := by
              rcases Bool.and_eq_true_iff.mp hcond with ⟨_, hc⟩
              simpa using hc
            have hrun0 : s0.status = JobStatus.running ∧
                s0.timedOut = false ∧ s0.result = none := by
              rcases hreach.2 with ⟨_, hst, _, _⟩ | h | hc | hf
              · rw [hst] at hstarted; exact absurd hstarted (by simp)
              · exact h
              · rw [hc] at hncl; exact absurd hncl (by simp)
              · rw [hf] at hnf; exact absurd hnf (by simp)
            rw [if_pos hrun0.1] at h1'
            have hcid : s0.commandId = cid := hreach.1
            cases h1'
            have hfroz := terminal_frozen post _ s hs rfl rfl hstarted rfl
            show some (s.status, s.result, s.error, s.finishedAt) = _
            rw [hfroz.1, hfroz.2.1, hfroz.2.2.1, hfroz.2.2.2]
            simp only [hrun0.2.2, hcid]

/-- Witness for the amended C2 at a concrete trace: start, timer fires at
`t = 4`, then a late body resolution and a late cancel, none of which
changes the committed `failed`/`TIMEOUT` state. -/
theorem C2_timeout_commits_failed_and_freezes_witness :
    hasCancel ([JobEv.startRun 0] : List (JobEv Nat)) = false ∧
    ((runJob (initJob Nat "demo")
        ([JobEv.startRun 0] ++ JobEv.timerFire 4 ::
          [JobEv.bodyResolve 9 5, JobEv.cancel 10])).map
        fun s => (s.status, s.result, s.error, s.finishedAt)) =
      some (JobStatus.failed, none,
        some (ErrCode.TIMEOUT, timeoutMsg "demo"), some 4) :=
  ⟨rfl, C2_timeout_commits_failed_and_freezes "demo" [JobEv.startRun 0]
    [JobEv.bodyResolve 9 5, JobEv.cancel 10] 4 rfl rfl⟩

/-! ## Backup-name lexicography (claim C9) -/

/-- Char order is Nat order on code points. -/
theorem charLt_iff (c d : Char) : c < d ↔ c.toNat < d.toNat := by
  rw [Char.lt_def]
  exact Iff.rfl

/-- Char order is irreflexive. -/
theorem charLt_irrefl (c : Char) : ¬c < c := by
  simp [Char.lt_def]

/-- A strictly smaller suffix after a common prefix gives a smaller list. -/
theorem listLt_append_left {s1 s2 : List Char} (p : List Char)
    (h : s1 < s2) : p ++ s1 < p ++ s2 := by
  induction p with
  | nil => exact h
  | cons a as ih =>
      simp only [List.cons_append]
      exact List.Lex.cons ih

/-- A common prefix then a common head then a smaller suffix. -/
theorem listLt_lift (p : List Char) (c : Char) {x y : List Char}
    (h : x < y) : p ++ c :: x < p ++ c :: y := by
  have := listLt_append_left (p ++ [c]) h
  simpa [List.append_assoc] using this

/-- Lists strictly ordered within a common length stay ordered under any
suffixes. -/
theorem listLt_append_of_lt : ∀ {l1 l2 : List Char},
    l1.length = l2.length → l1 < l2 → ∀ (s1 s2 : List Char),
      l1 ++ s1 < l2 ++ s2 := by
  intro l1 l2 hlen h
  induction h with
  | nil => simp at hlen
  | cons h ih =>
      intro s1 s2
      simp only [List.cons_append]
      exact List.Lex.cons (ih (by simpa using hlen) s1 s2)
  | rel hr =>
      intro s1 s2
      simp only [List.cons_append]
      exact List.Lex.rel hr

/-- Code point of a digit character. -/
theorem digitChar_toNat {d : Nat} (h : d ≤ 9) :
    (digitChar d).toNat = 48 + d := by
  interval_cases d <;> decide

/-- Digit characters are ordered like their digits. -/
theorem digitChar_lt {d1 d2 : Nat} (h1 : d1 < d2) (h2 : d2 ≤ 9) :
    digitChar d1 < digitChar d2 := by
  rw [charLt_iff, digitChar_toNat (by omega), digitChar_toNat h2]
  omega

/-- Length of the fixed-width rendering. -/
theorem padDigits_length (w n : Nat) : (padDigits w n).length = w := by
  induction w generalizing n with
  | zero => rfl
  | succ w ih => simp [padDigits, ih]

/-- The leading digit of an in-range value is at most 9. -/
theorem lead_digit_le (w n : Nat) (h : n < 10 ^ (w + 1)) : n / 10 ^ w ≤ 9 := by
  have h10 : (0 : Nat) < 10 ^ w := Nat.pos_pow_of_pos w (by omega)
  have hlt : n / 10 ^ w < 10 := by
    rw [Nat.div_lt_iff_lt_mul h10]
    rw [Nat.pow_succ] at h
    omega
  omega

/-- Fixed-width decimal strings are ordered like their values. -/
theorem padDigits_lt : ∀ (w n m : Nat), n < m → m < 10 ^ w →
    padDigits w n < padDigits w m := by
  intro w
  induction w with
  | zero =>
      intro n m h1 h2
      rw [pow_zero] at h2
      omega
  | succ w ih =>
      intro n m h1 h2
      have h10 : (0 : Nat) < 10 ^ w := Nat.pos_pow_of_pos w (by omega)
      have hd : n / 10 ^ w ≤ m / 10 ^ w := Nat.div_le_div_right h1.le
      rcases lt_or_eq_of_le hd with hlt | heq
      · simp only [padDigits]
        exact List.Lex.rel (digitChar_lt hlt (lead_digit_le w m h2))
      · have hmod : n % 10 ^ w < m % 10 ^ w := by
          have hn := Nat.div_add_mod n (10 ^ w)
          have hm := Nat.div_add_mod m (10 ^ w)
          rw [heq] at hn
          omega
        simp only [padDigits]
        rw [heq]
        exact List.Lex.cons (ih _ _ hmod (Nat.mod_lt _ h10))

/-- `replace` fixes digit characters. -/
theorem replChar_digit {d : Nat} (h : d ≤ 9) :
    replChar (digitChar d) = digitChar d := by
  interval_cases d <;> decide

/-- `replace` fixes whole fixed-width digit runs. -/
theorem padDigits_map_repl : ∀ (w n : Nat), n < 10 ^ w →
    (padDigits w n).map replChar = padDigits w n := by
  intro w
  induction w with
  | zero => intro n _; rfl
  | succ w ih =>
      intro n h
      have h10 : (0 : Nat) < 10 ^ w := Nat.pos_pow_of_pos w (by omega)
      simp only [padDigits, List.map_cons]
      rw [replChar_digit (lead_digit_le w n h), ih _ (Nat.mod_lt _ h10)]

/-- The backup directory name in expanded form: the ISO separators with
colons and dots replaced by dashes, digits untouched. -/
theorem backupNameChars_eq {t : DateTime} (h : t.wf) :
    backupNameChars t =
      padDigits 4 t.year ++ '-' ::
        (padDigits 2 t.month ++ '-' ::
          (padDigits 2 t.day ++ 'T' ::
            (padDigits 2 t.hour ++ '-' ::
              (padDigits 2 t.minute ++ '-' ::
                (padDigits 2 t.second ++ '-' ::
                  (padDigits 3 t.ms ++ ['Z'])))))) := by
  obtain ⟨hy, hmo, hd, hh, hmi, hs, hms⟩ := h
  unfold backupNameChars isoChars
  simp only [List.map_append, List.map_cons, List.map_nil]
  rw [padDigits_map_repl 4 _ (by simpa using hy),
    padDigits_map_repl 2 _ (by simpa using hmo),
    padDigits_map_repl 2 _ (by simpa using hd),
    padDigits_map_repl 2 _ (by simpa using hh),
    padDigits_map_repl 2 _ (by simpa using hmi),
    padDigits_map_repl 2 _ (by simpa using hs),
    padDigits_map_repl 3 _ (by simpa using hms)]
  rfl

/-- Strict chronological order gives strict lexicographic name order. -/
theorem backupNameChars_mono {t1 t2 : DateTime} (h1 : t1.wf) (h2 : t2.wf)
    (hlt : DateTime.lt t1 t2) :
    backupNameChars t1 < backupNameChars t2 := by
  obtain ⟨hy1, hmo1, hd1, hh1, hmi1, hs1, hms1⟩ := h1
  obtain ⟨hy2, hmo2, hd2, hh2, hmi2, hs2, hms2⟩ := h2
  rw [backupNameChars_eq ⟨hy1, hmo1, hd1, hh1, hmi1, hs1, hms1⟩,
    backupNameChars_eq ⟨hy2, hmo2, hd2, hh2, hmi2, hs2, hms2⟩]
  have p4 : ∀ a b : Nat, (padDigits 4 a).length = (padDigits 4 b).length := by
    intro a b; rw [padDigits_length, padDigits_length]
  have p2 : ∀ a b : Nat, (padDigits 2 a).length = (padDigits 2 b).length := by
    intro a b; rw [padDigits_length, padDigits_length]
  have p3 : ∀ a b : Nat, (padDigits 3 a).length = (padDigits 3 b).length := by
    intro a b; rw [padDigits_length, padDigits_length]
  rcases hlt with hy | ⟨hyeq, hmo | ⟨hmoeq, hd | ⟨hdeq, hh | ⟨hheq,
    hmi | ⟨hmieq, hs | ⟨hseq, hms⟩⟩⟩⟩⟩⟩
  · exact listLt_append_of_lt (p4 _ _)
      (padDigits_lt 4 _ _ hy (by simpa using hy2)) _ _
  · rw [hyeq]
    exact listLt_lift _ _ (listLt_append_of_lt (p2 _ _)
      (padDigits_lt 2 _ _ hmo (by simpa using hmo2)) _ _)
  · rw [hyeq, hmoeq]
    exact listLt_lift _ _ (listLt_lift _ _ (listLt_append_of_lt (p2 _ _)
      (padDigits_lt 2 _ _ hd (by simpa using hd2)) _ _))
  · rw [hyeq, hmoeq, hdeq]
    exact listLt_lift _ _ (listLt_lift _ _ (listLt_lift _ _
      (listLt_append_of_lt (p2 _ _)
        (padDigits_lt 2 _ _ hh (by simpa using hh2)) _ _)))
  · rw [hyeq, hmoeq, hdeq, hheq]
    exact listLt_lift _ _ (listLt_lift _ _ (listLt_lift _ _ (listLt_lift _ _
      (listLt_append_of_lt (p2 _ _)
        (padDigits_lt 2 _ _ hmi (by simpa using hmi2)) _ _))))
  · rw [hyeq, hmoeq, hdeq, hheq, hmieq]
    exact listLt_lift _ _ (listLt_lift _ _ (listLt_lift _ _ (listLt_lift _ _
      (listLt_lift _ _ (listLt_append_of_lt (p2 _ _)
        (padDigits_lt 2 _ _ hs (by simpa using hs2)) _ _)))))
  · rw [hyeq, hmoeq, hdeq, hheq, hmieq, hseq]
    exact listLt_lift _ _ (listLt_lift _ _ (listLt_lift _ _ (listLt_lift _ _
      (listLt_lift _ _ (listLt_lift _ _ (listLt_append_of_lt (p3 _ _)
        (padDigits_lt 3 _ _ hms (by simpa using hms2)) _ _))))))

/-- C9: the backup directory naming (ISO-8601 with `:` and `.` replaced by
dashes) is monotone in creation time for all timestamps `toISOString` can
produce — strictly earlier instants give lexicographically strictly smaller
names (lexicographic order on the character list, which is exactly
JavaScript's string order for these ASCII names), including across a day
boundary — and two backups created at the same millisecond (equal clock
readings) get identical names.  This is the order `findLatestBackup`'s
reverse-sorted walk depends on. -/
theorem C9_backup_dir_names_sort_chronologically (t1 t2 : DateTime)
    (h1 : t1.wf) (h2 : t2.wf) :
    (DateTime.lt t1 t2 → backupNameChars t1 < backupNameChars t2) ∧
    (t1 = t2 → backupNameChars t1 = backupNameChars t2) := by
  constructor
  · intro hlt
    exact backupNameChars_mono h1 h2 hlt
  · intro heq
    rw [heq]

/-! ## JSON print / parse round trip

The battery below proves `parseDoc (stringifyDoc x) = some x`, read by
`readConfig` after a `writeConfig` (claims C4, C5, C10). -/

/-- Digit characters are digits. -/
theorem isDigitc_digitChar {d : Nat} (h : d ≤ 9) :
    isDigitc (digitChar d) = true := by
  interval_cases d <;> decide

/-- Digit value of a digit character. -/
theorem dval_digitChar {d : Nat} (h : d ≤ 9) : dval (digitChar d) = d := by
  interval_cases d <;> decide

/-- Unequal code points give unequal characters. -/
theorem char_ne_of_toNat_ne {c d : Char} (h : c.toNat ≠ d.toNat) : c ≠ d :=
  fun he => h (he ▸ rfl)

/-- Digits are not JSON whitespace. -/
theorem digit_not_ws {c : Char} (h : isDigitc c = true) :
    isWsc c = false := by
  have hb : 48 ≤ c.toNat ∧ c.toNat ≤ 57 := by
    simpa [isDigitc] using h
  have h32 : c ≠ ' ' := char_ne_of_toNat_ne (by simp; omega)
  have h10 : c ≠ '\n' := char_ne_of_toNat_ne (by simp; omega)
  have h9 : c ≠ '\t' := char_ne_of_toNat_ne (by simp; omega)
  have h13 : c ≠ '\r' := char_ne_of_toNat_ne (by simp; omega)
  simp [isWsc, h32, h10, h9, h13]

/-- One-digit step of `natDigsAux`. -/
theorem natDigsAux_lt {n : Nat} (h : n < 10) (acc : List Char) :
    natDigsAux n acc = digitChar n :: acc := by
  rw [natDigsAux]
  simp [h]

/-- Recursive step of `natDigsAux`. -/
theorem natDigsAux_ge {n : Nat} (h : ¬n < 10) (acc : List Char) :
    natDigsAux n acc = natDigsAux (n / 10) (digitChar (n % 10) :: acc) := by
  rw [natDigsAux]
  simp [h]

/-- The accumulator of `natDigsAux` is a suffix. -/
theorem natDigsAux_acc : ∀ (n : Nat) (acc : List Char),
    natDigsAux n acc = natDigsAux n [] ++ acc := by
  intro n
  induction n using Nat.strong_induction_on with
  | _ n ih =>
      intro acc
      by_cases h : n < 10
      · rw [natDigsAux_lt h, natDigsAux_lt h]
        simp
      · rw [natDigsAux_ge h, natDigsAux_ge h]
        have hd : n / 10 < n := Nat.div_lt_self (by omega) (by omega)
        rw [ih _ hd (digitChar (n % 10) :: acc), ih _ hd [digitChar (n % 10)]]
        simp

/-- Enough fuel makes the structural digits loop agree with the
well-founded one. -/
theorem natDigsF_eq : ∀ (fuel n : Nat) (acc : List Char), n ≤ fuel →
    natDigsF (fuel + 1) n acc = natDigsAux n acc := by
  intro fuel
  induction fuel with
  | zero =>
      intro n acc hn
      have hn0 : n = 0 := Nat.le_zero.mp hn
      subst hn0
      rw [natDigsAux_lt (by omega)]
      rfl
  | succ fuel ih =>
      intro n acc hn
      by_cases h : n < 10
      · rw [natDigsAux_lt h]
        simp [natDigsF, h]
      · rw [natDigsAux_ge h]
        rw [show natDigsF (fuel + 1 + 1) n acc =
          natDigsF (fuel + 1) (n / 10) (digitChar (n % 10) :: acc) by
          simp [natDigsF, h]]
        exact ih (n / 10) _ (by
          have := Nat.div_lt_self (show 0 < n by omega) (show 1 < 10 by omega)
          omega)

/-- `natChars` through the well-founded loop. -/
theorem natChars_eq (n : Nat) : natChars n = natDigsAux n [] :=
  natDigsF_eq n n [] (le_refl n)

/-- Unfolding `natChars` for two-digit-or-more values. -/
theorem natChars_split {n : Nat} (h : ¬n < 10) :
    natChars n = natChars (n / 10) ++ [digitChar (n % 10)] := by
  rw [natChars_eq, natChars_eq]
  rw [natDigsAux_ge h]
  exact natDigsAux_acc _ _

/-- Decimal renderings are digit runs. -/
theorem natChars_digits : ∀ (n : Nat), ∀ c ∈ natChars n, isDigitc c = true := by
  intro n
  induction n using Nat.strong_induction_on with
  | _ n ih =>
      intro c hc
      by_cases h : n < 10
      · rw [natChars_eq, natDigsAux_lt h] at hc
        rcases List.mem_singleton.mp hc with rfl
        exact isDigitc_digitChar (by omega)
      · rw [natChars_split h] at hc
        rcases List.mem_append.mp hc with hm | hm
        · exact ih _ (Nat.div_lt_self (by omega) (by omega)) c hm
        · rcases List.mem_singleton.mp hm with rfl
          exact isDigitc_digitChar (show n % 10 ≤ 9 by omega)

/-- Decimal renderings are nonempty. -/
theorem natChars_ne_nil (n : Nat) : natChars n ≠ [] := by
  by_cases h : n < 10
  · rw [natChars_eq, natDigsAux_lt h]
    simp
  · rw [natChars_split h]
    simp

/-- Folding the digit accumulator over a decimal rendering recovers the
value. -/
theorem natChars_foldl : ∀ (n : Nat),
    (natChars n).foldl (fun a c => a * 10 + dval c) 0 = n := by
  intro n
  induction n using Nat.strong_induction_on with
  | _ n ih =>
      by_cases h : n < 10
      · rw [natChars_eq, natDigsAux_lt h]
        simp only [List.foldl_cons, List.foldl_nil]
        rw [dval_digitChar (show n ≤ 9 by omega)]
        omega
      · rw [natChars_split h, List.foldl_append]
        simp only [List.foldl_cons, List.foldl_nil]
        rw [ih _ (Nat.div_lt_self (by omega) (by omega))]
        rw [dval_digitChar (show n % 10 ≤ 9 by omega)]
        omega

/-- `digitsLoop` consumes exactly a digit run followed by `restOk` input. -/
theorem digitsLoop_spec : ∀ (ds : List Char) (acc : Nat) (rest : List Char),
    (∀ c ∈ ds, isDigitc c = true) → restOk rest →
    digitsLoop acc (ds ++ rest) =
      (ds.foldl (fun a c => a * 10 + dval c) acc, rest) := by
  intro ds
  induction ds with
  | nil =>
      intro acc rest _ hrest
      cases rest with
      | nil => rfl
      | cons c l =>
          have := hrest c l rfl
          simp [digitsLoop, this]
  | cons c ds ih =>
      intro acc rest hds hrest
      have hc := hds c (List.mem_cons_self _ _)
      simp only [List.cons_append, digitsLoop, hc, if_true, List.foldl_cons]
      exact ih _ rest (fun d hd => hds d (List.mem_cons_of_mem _ hd)) hrest

/-- `parseNat` round-trips decimal renderings. -/
theorem parseNat_natChars (n : Nat) (rest : List Char) (hrest : restOk rest) :
    parseNat (natChars n ++ rest) = some (n, rest) := by
  cases hnc : natChars n with
  | nil => exact absurd hnc (natChars_ne_nil n)
  | cons c ds =>
      have hc : isDigitc c = true := by
        apply natChars_digits n
        rw [hnc]
        exact List.mem_cons_self _ _
      have hds : ∀ d ∈ ds, isDigitc d = true := by
        intro d hd
        apply natChars_digits n
        rw [hnc]
        exact List.mem_cons_of_mem _ hd
      simp only [List.cons_append, parseNat, hc, if_true]
      rw [digitsLoop_spec ds (dval c) rest hds hrest]
      have hval := natChars_foldl n
      rw [hnc] at hval
      simp only [List.foldl_cons] at hval
      have hz : (0 : Nat) * 10 + dval c = dval c := by omega
      rw [hz] at hval
      rw [hval]

/-- `skipWs` drops a whitespace prefix. -/
theorem skipWs_ws_left : ∀ (p l : List Char),
    (∀ c ∈ p, isWsc c = true) → skipWs (p ++ l) = skipWs l := by
  intro p
  induction p with
  | nil => intro l _; rfl
  | cons c p ih =>
      intro l hp
      have hc := hp c (List.mem_cons_self _ _)
      simp only [List.cons_append, skipWs, hc, if_true]
      exact ih l fun d hd => hp d (List.mem_cons_of_mem _ hd)

/-- `skipWs` keeps non-whitespace-headed input. -/
theorem skipWs_not_ws {c : Char} (l : List Char) (h : isWsc c = false) :
    skipWs (c :: l) = c :: l := by
  simp [skipWs, h]

/-- Indentation is whitespace. -/
theorem ind_ws (d : Nat) : ∀ c ∈ ind d, isWsc c = true := by
  intro c hc
  rw [ind] at hc
  rcases List.eq_of_mem_replicate hc with rfl
  rfl

/-- Hex digits decode to their values. -/
theorem hexVal_hexChar {d : Nat} (h : d < 16) : hexVal (hexChar d) = some d := by
  interval_cases d <;> decide

/-- `decodeU` round-trips the `\u00XX` encoding of a control character. -/
theorem decodeU_encode (m : Nat) (hm : m < 32) (tail : List Char) :
    decodeU ('0' :: '0' :: hexChar (m / 16) :: hexChar (m % 16) :: tail) =
      some (Char.ofNat m, tail) := by
  have h0 : hexVal '0' = some 0 := rfl
  have hhi := hexVal_hexChar (show m / 16 < 16 by omega)
  have hlo := hexVal_hexChar (show m % 16 < 16 by omega)
  simp only [decodeU, h0, hhi, hlo]
  have hval : ((0 * 16 + 0) * 16 + m / 16) * 16 + m % 16 = m := by omega
  rw [hval]
  rw [if_pos (Or.inl (show m < 55296 by omega))]

/-- `parseStr` decodes exactly what `escChars` encoded, up to the closing
quote. -/
theorem parseStr_esc : ∀ (s : List Char) (fuel : Nat) (rest : List Char),
    s.length < fuel →
    parseStr fuel (escChars s ++ '"' :: rest) = some (s, rest) := by
  intro s
  induction s with
  | nil =>
      intro fuel rest h
      match fuel, h with
      | fuel + 1, _ => rfl
  | cons c s ih =>
      intro fuel rest h
      match fuel, h with
      | fuel + 1, h =>
        have hstep := ih fuel rest (by simpa using h)
        have hs : escChars (c :: s) = escChar c ++ escChars s := rfl
        rw [hs, List.append_assoc]
        by_cases h1 : c = '"'
        · subst h1
          simp [escChar, parseStr, escDecode, hstep]
        by_cases h2 : c = '\\'
        · subst h2
          simp [escChar, parseStr, escDecode, hstep]
        by_cases h3 : c = Char.ofNat 8
        · subst h3
          simp [escChar, parseStr, escDecode, hstep]
        by_cases h4 : c = Char.ofNat 9
        · subst h4
          simp [escChar, parseStr, escDecode, hstep]
        by_cases h5 : c = Char.ofNat 10
        · subst h5
          simp [escChar, parseStr, escDecode, hstep]
        by_cases h6 : c = Char.ofNat 12
        · subst h6
          simp [escChar, parseStr, escDecode, hstep]
        by_cases h7 : c = Char.ofNat 13
        · subst h7
          simp [escChar, parseStr, escDecode, hstep]
        by_cases h8 : c.toNat < 32
        · have he : escChar c =
              ['\\', 'u', '0', '0', hexChar (c.toNat / 16),
                hexChar (c.toNat % 16)] := by
            simp [escChar, h1, h2, h3, h4, h5, h6, h7, h8]
          rw [he]
          have hdec : escDecode ('u' :: '0' :: '0' ::
              hexChar (c.toNat / 16) :: hexChar (c.toNat % 16) ::
              (escChars s ++ '"' :: rest)) =
              some (c, escChars s ++ '"' :: rest) := by
            simp [escDecode]
            rw [decodeU_encode c.toNat h8]
            rw [Char.ofNat_toNat]
          simp [parseStr, hdec, hstep]
        · have he : escChar c = [c] := by
            simp [escChar, h1, h2, h3, h4, h5, h6, h7, h8]
          rw [he]
          simp only [List.cons_append, List.nil_append]
          simp [parseStr, h1, h2, h8, hstep]

/-- A digit character differs from any non-digit character. -/
theorem digit_ne {c : Char} (h : isDigitc c = true) (d : Char)
    (hd : isDigitc d = false) : c ≠ d := by
  intro he
  subst he
  rw [h] at hd
  exact Bool.noConfusion hd

/-- Weights are positive. -/
theorem wJson_pos : ∀ x : Json, 1 ≤ wJson x := by
  intro x
  cases x with
  | null => simp [wJson]
  | bool b => simp [wJson]
  | num n => simp [wJson]
  | str s => simp only [wJson]; omega
  | arr xs => simp [wJson]
  | obj es => simp [wJson]

/-- Item-list weights are positive. -/
theorem wItems_pos : ∀ xs : List Json, 1 ≤ wItems xs := by
  intro xs
  cases xs with
  | nil => simp [wItems]
  | cons y ys => simp [wItems]; omega

/-- Entry-list weights are positive. -/
theorem wEntries_pos : ∀ es : List (List Char × Json), 1 ≤ wEntries es := by
  intro es
  cases es with
  | nil => simp [wEntries]
  | cons e es => simp [wEntries]; omega

/-- Members weigh no more than their list. -/
theorem wJson_le_wItems : ∀ (xs : List Json) (z : Json), z ∈ xs →
    wJson z ≤ wItems xs := by
  intro xs
  induction xs with
  | nil => intro z hz; cases hz
  | cons y ys ih =>
      intro z hz
      rcases List.mem_cons.mp hz with rfl | hz
      · simp [wItems]; omega
      · have := ih z hz
        simp [wItems]
        omega

/-- Entry values weigh no more than their list. -/
theorem wJson_le_wEntries : ∀ (es : List (List Char × Json))
    (kv : List Char × Json), kv ∈ es → wJson kv.2 ≤ wEntries es := by
  intro es
  induction es with
  | nil => intro kv hkv; cases hkv
  | cons e es ih =>
      intro kv hkv
      rcases List.mem_cons.mp hkv with rfl | hkv
      · simp [wEntries]; omega
      · have := ih kv hkv
        simp [wEntries]
        omega

/-- Every printed value starts with a printable token head: not whitespace
and not a closing bracket. -/
theorem sJson_head (d : Nat) (x : Json) :
    ∃ c l, sJson d x = c :: l ∧ isWsc c = false ∧ c ≠ ']' := by
  cases x with
  | null => exact ⟨'n', _, rfl, by decide, by decide⟩
  | bool b =>
      cases b with
      | false => exact ⟨'f', _, rfl, by decide, by decide⟩
      | true => exact ⟨'t', _, rfl, by decide, by decide⟩
  | num n =>
      cases n with
      | ofNat m =>
          cases hnc : natChars m with
          | nil => exact absurd hnc (natChars_ne_nil m)
          | cons c ds =>
              have hc : isDigitc c = true := by
                apply natChars_digits m
                rw [hnc]
                exact List.mem_cons_self _ _
              refine ⟨c, ds, ?_, digit_not_ws hc, digit_ne hc ']' (by decide)⟩
              show intChars (Int.ofNat m) = c :: ds
              rw [show intChars (Int.ofNat m) = natChars m from rfl, hnc]
      | negSucc m => exact ⟨'-', _, rfl, by decide, by decide⟩
  | str s => exact ⟨'"', _, rfl, by decide, by decide⟩
  | arr xs =>
      cases xs with
      | nil => exact ⟨'[', _, rfl, by decide, by decide⟩
      | cons y ys => exact ⟨'[', _, rfl, by decide, by decide⟩
  | obj es =>
      cases es with
      | nil => exact ⟨lbrace, _, rfl, by decide, by decide⟩
      | cons e es => exact ⟨lbrace, _, rfl, by decide, by decide⟩

/-- What follows an array item never extends a number. -/
theorem restOk_sItemsTail (d : Nat) (xs : List Json) (z : List Char) :
    restOk (sItemsTail d xs ++ '\n' :: z) := by
  cases xs with
  | nil =>
      intro c l h
      simp only [sItemsTail, List.nil_append, List.cons.injEq] at h
      rw [← h.1]
      decide
  | cons y ys =>
      intro c l h
      simp only [sItemsTail, List.cons_append, List.cons.injEq] at h
      rw [← h.1]
      decide

/-- What follows an object entry never extends a number. -/
theorem restOk_sEntriesTail (d : Nat) (es : List (List Char × Json))
    (z : List Char) : restOk (sEntriesTail d es ++ '\n' :: z) := by
  cases es with
  | nil =>
      intro c l h
      simp only [sEntriesTail, List.nil_append, List.cons.injEq] at h
      rw [← h.1]
      decide
  | cons e es =>
      intro c l h
      simp only [sEntriesTail, List.cons_append, List.cons.injEq] at h
      rw [← h.1]
      decide

/-- A pretty-printed nonempty item list parses back, given that each
member value parses back. -/
theorem parse_items_aux : ∀ (xs : List Json) (x : Json) (fuel d dcl : Nat)
    (pre rest : List Char),
    (∀ z, z = x ∨ z ∈ xs →
      ∀ (fuel' d' : Nat) (pre' rest' : List Char),
        (∀ c ∈ pre', isWsc c = true) → wJson z ≤ fuel' → restOk rest' →
        parseVal fuel' (pre' ++ (sJson d' z ++ rest')) = some (z, rest')) →
    (∀ c ∈ pre, isWsc c = true) →
    wItems (x :: xs) ≤ fuel →
    parseItems fuel (pre ++ (sJson d x ++
      (sItemsTail d xs ++ '\n' :: (ind dcl ++ ']' :: rest)))) =
      some (x :: xs, rest) := by
  intro xs
  induction xs with
  | nil =>
      intro x fuel d dcl pre rest hcap hpre hfuel
      cases fuel with
      | zero =>
          exfalso
          have := wJson_pos x
          simp [wItems] at hfuel
      | succ f =>
          have hwx : wJson x ≤ f := by
            simp [wItems] at hfuel
            omega
          have hx := hcap x (Or.inl rfl) f d pre
            (sItemsTail d [] ++ '\n' :: (ind dcl ++ ']' :: rest)) hpre hwx
            (restOk_sItemsTail d [] _)
          simp only [parseItems, hx]
          have hsw : skipWs (sItemsTail d [] ++ '\n' ::
              (ind dcl ++ ']' :: rest)) = ']' :: rest := by
            simp only [sItemsTail, List.nil_append]
            rw [show ('\n' :: (ind dcl ++ ']' :: rest) : List Char) =
              ('\n' :: ind dcl) ++ ']' :: rest by simp]
            rw [skipWs_ws_left]
            · exact skipWs_not_ws _ (by decide)
            · intro c hc
              rcases List.mem_cons.mp hc with rfl | hc
              · rfl
              · exact ind_ws dcl c hc
          rw [hsw]
          simp
  | cons y ys ih =>
      intro x fuel d dcl pre rest hcap hpre hfuel
      cases fuel with
      | zero =>
          exfalso
          have h1 := wJson_pos x
          have h2 := wItems_pos (y :: ys)
          simp [wItems] at hfuel
      | succ f =>
          have hwx : wJson x ≤ f := by
            have := wItems_pos (y :: ys)
            simp [wItems] at hfuel
            omega
          have hx := hcap x (Or.inl rfl) f d pre
            (sItemsTail d (y :: ys) ++ '\n' :: (ind dcl ++ ']' :: rest)) hpre
            hwx (restOk_sItemsTail d (y :: ys) _)
          simp only [parseItems, hx]
          have hsw : skipWs (sItemsTail d (y :: ys) ++ '\n' ::
              (ind dcl ++ ']' :: rest)) =
              ',' :: ('\n' :: (ind d ++ (sJson d y ++ (sItemsTail d ys ++
                '\n' :: (ind dcl ++ ']' :: rest))))) := by
            simp only [sItemsTail, List.cons_append, List.append_assoc]
            exact skipWs_not_ws _ (by decide)
          rw [hsw]
          have hrec := ih y f d dcl ('\n' :: ind d) rest
            (fun z hz => hcap z (Or.inr (by
              rcases hz with rfl | hz
              · exact List.mem_cons_self _ _
              · exact List.mem_cons_of_mem _ hz)))
            (by
              intro c hc
              rcases List.mem_cons.mp hc with rfl | hc
              · rfl
              · exact ind_ws d c hc)
            (by
              have := wJson_pos x
              simp [wItems] at hfuel ⊢
              omega)
          simp only [List.cons_append, List.append_assoc] at hrec
          simp [hrec]

/-- A pretty-printed nonempty entry list parses back, given that each
member value parses back. -/
theorem parse_entries_aux : ∀ (es : List (List Char × Json))
    (e : List Char × Json) (fuel d dcl : Nat) (pre rest : List Char),
    (∀ kv : List Char × Json, kv = e ∨ kv ∈ es →
      ∀ (fuel' d' : Nat) (pre' rest' : List Char),
        (∀ c ∈ pre', isWsc c = true) → wJson kv.2 ≤ fuel' → restOk rest' →
        parseVal fuel' (pre' ++ (sJson d' kv.2 ++ rest')) =
          some (kv.2, rest')) →
    (∀ c ∈ pre, isWsc c = true) →
    wEntries (e :: es) ≤ fuel →
    parseEntries fuel (pre ++ (sEntry d e ++
      (sEntriesTail d es ++ '\n' :: (ind dcl ++ rbrace :: rest)))) =
      some (e :: es, rest) := by
  intro es
  induction es with
  | nil =>
      intro e fuel d dcl pre rest hcap hpre hfuel
      obtain ⟨k, v⟩ := e
      cases fuel with
      | zero =>
          exfalso
          have := wJson_pos v
          simp [wEntries] at hfuel
      | succ f =>
          have hklen : k.length < f := by
            have := wJson_pos v
            simp [wEntries] at hfuel
            omega
          have hwv : wJson v ≤ f := by
            simp [wEntries] at hfuel
            omega
          have hsw : skipWs (pre ++ (sEntry d (k, v) ++
              (sEntriesTail d [] ++ '\n' :: (ind dcl ++ rbrace :: rest)))) =
              '"' :: (escChars k ++ '"' :: (':' :: ' ' :: (sJson d v ++
                (sEntriesTail d [] ++ '\n' :: (ind dcl ++ rbrace :: rest))))) := by
            rw [skipWs_ws_left pre _ hpre]
            simp only [sEntry, List.cons_append, List.append_assoc]
            exact skipWs_not_ws _ (by decide)
          simp only [parseEntries, hsw]
          have hkey := parseStr_esc k f (':' :: ' ' :: (sJson d v ++
            (sEntriesTail d [] ++ '\n' :: (ind dcl ++ rbrace :: rest)))) hklen
          simp only [List.append_assoc] at hkey
          simp only [reduceIte, hkey]
          have hcolon : skipWs (':' :: ' ' :: (sJson d v ++
              (sEntriesTail d [] ++ '\n' :: (ind dcl ++ rbrace :: rest)))) =
              ':' :: ' ' :: (sJson d v ++ (sEntriesTail d [] ++
                '\n' :: (ind dcl ++ rbrace :: rest))) :=
            skipWs_not_ws _ (by decide)
          simp only [hcolon, reduceIte]
          have hval := hcap (k, v) (Or.inl rfl) f d [' ']
            (sEntriesTail d [] ++ '\n' :: (ind dcl ++ rbrace :: rest))
            (by intro c hc; rcases List.mem_singleton.mp hc with rfl; rfl)
            hwv (restOk_sEntriesTail d [] _)
          simp only [List.cons_append, List.nil_append] at hval
          simp only [hval]
          have hclose : skipWs (sEntriesTail d [] ++ '\n' ::
              (ind dcl ++ rbrace :: rest)) = rbrace :: rest := by
            simp only [sEntriesTail, List.nil_append]
            rw [show ('\n' :: (ind dcl ++ rbrace :: rest) : List Char) =
              ('\n' :: ind dcl) ++ rbrace :: rest by simp]
            rw [skipWs_ws_left]
            · exact skipWs_not_ws _ (by decide)
            · intro c hc
              rcases List.mem_cons.mp hc with rfl | hc
              · rfl
              · exact ind_ws dcl c hc
          simp only [hclose]
          rw [if_neg (by decide), if_pos trivial]
  | cons e2 es2 ih =>
      intro e fuel d dcl pre rest hcap hpre hfuel
      obtain ⟨k, v⟩ := e
      cases fuel with
      | zero =>
          exfalso
          have h1 := wJson_pos v
          have h2 := wEntries_pos (e2 :: es2)
          simp [wEntries] at hfuel
      | succ f =>
          have hklen : k.length < f := by
            have h1 := wJson_pos v
            have h2 := wEntries_pos (e2 :: es2)
            simp [wEntries] at hfuel
            omega
          have hwv : wJson v ≤ f := by
            have h2 := wEntries_pos (e2 :: es2)
            simp [wEntries] at hfuel
            omega
          have hsw : skipWs (pre ++ (sEntry d (k, v) ++
              (sEntriesTail d (e2 :: es2) ++
                '\n' :: (ind dcl ++ rbrace :: rest)))) =
              '"' :: (escChars k ++ '"' :: (':' :: ' ' :: (sJson d v ++
                (sEntriesTail d (e2 :: es2) ++
                  '\n' :: (ind dcl ++ rbrace :: rest))))) := by
            rw [skipWs_ws_left pre _ hpre]
            simp only [sEntry, List.cons_append, List.append_assoc]
            exact skipWs_not_ws _ (by decide)
          simp only [parseEntries, hsw]
          have hkey := parseStr_esc k f (':' :: ' ' :: (sJson d v ++
            (sEntriesTail d (e2 :: es2) ++
              '\n' :: (ind dcl ++ rbrace :: rest)))) hklen
          simp only [List.append_assoc] at hkey
          simp only [reduceIte, hkey]
          have hcolon : skipWs (':' :: ' ' :: (sJson d v ++
              (sEntriesTail d (e2 :: es2) ++
                '\n' :: (ind dcl ++ rbrace :: rest)))) =
              ':' :: ' ' :: (sJson d v ++ (sEntriesTail d (e2 :: es2) ++
                '\n' :: (ind dcl ++ rbrace :: rest))) :=
            skipWs_not_ws _ (by decide)
          simp only [hcolon, reduceIte]
          have hval := hcap (k, v) (Or.inl rfl) f d [' ']
            (sEntriesTail d (e2 :: es2) ++ '\n' :: (ind dcl ++ rbrace :: rest))
            (by intro c hc; rcases List.mem_singleton.mp hc with rfl; rfl)
            hwv (restOk_sEntriesTail d (e2 :: es2) _)
          simp only [List.cons_append, List.nil_append] at hval
          simp only [hval]
          have hsep : skipWs (sEntriesTail d (e2 :: es2) ++
              '\n' :: (ind dcl ++ rbrace :: rest)) =
              ',' :: '\n' :: (ind d ++ (sEntry d e2 ++ (sEntriesTail d es2 ++
                '\n' :: (ind dcl ++ rbrace :: rest)))) := by
            simp only [sEntriesTail, List.cons_append, List.append_assoc]
            exact skipWs_not_ws _ (by decide)
          simp only [hsep]
          have hrec := ih e2 f d dcl ('\n' :: ind d) rest
            (fun kv hkv => hcap kv (Or.inr (by
              rcases hkv with rfl | hkv
              · exact List.mem_cons_self _ _
              · exact List.mem_cons_of_mem _ hkv)))
            (by
              intro c hc
              rcases List.mem_cons.mp hc with rfl | hc
              · rfl
              · exact ind_ws d c hc)
            (by
              have := wJson_pos v
              simp [wEntries] at hfuel ⊢
              omega)
          simp only [List.cons_append, List.append_assoc] at hrec
          simp only [reduceIte, hrec]
          rfl

/-- Main round trip: a pretty-printed value, after any leading whitespace
and before any non-digit-headed tail, parses back to itself. -/
theorem parse_print_aux : ∀ (W : Nat) (x : Json) (fuel d : Nat)
    (pre rest : List Char),
    wJson x < W → (∀ c ∈ pre, isWsc c = true) → wJson x ≤ fuel →
    restOk rest →
    parseVal fuel (pre ++ (sJson d x ++ rest)) = some (x, rest) := by
  intro W
  induction W with
  | zero =>
      intro x fuel d pre rest hW
      omega
  | succ W ihW =>
      intro x fuel d pre rest hW hpre hfuel hrest
      cases fuel with
      | zero =>
          have := wJson_pos x
          omega
      | succ f =>
        cases x with
        | null =>
            have hsw : skipWs (pre ++ (sJson d Json.null ++ rest)) =
                'n' :: 'u' :: 'l' :: 'l' :: rest := by
              rw [skipWs_ws_left pre _ hpre]
              exact skipWs_not_ws _ (by decide)
            simp only [parseVal, hsw]
            simp [parseNull]
        | bool b =>
            cases b with
            | true =>
                have hsw : skipWs (pre ++ (sJson d (Json.bool true) ++ rest)) =
                    't' :: 'r' :: 'u' :: 'e' :: rest := by
                  rw [skipWs_ws_left pre _ hpre]
                  exact skipWs_not_ws _ (by decide)
                simp only [parseVal, hsw]
                simp [parseTrue]
            | false =>
                have hsw : skipWs (pre ++ (sJson d (Json.bool false) ++ rest)) =
                    'f' :: 'a' :: 'l' :: 's' :: 'e' :: rest := by
                  rw [skipWs_ws_left pre _ hpre]
                  exact skipWs_not_ws _ (by decide)
                simp only [parseVal, hsw]
                simp [parseFalse]
        | num n =>
            cases n with
            | ofNat m =>
                cases hnc : natChars m with
                | nil => exact absurd hnc (natChars_ne_nil m)
                | cons c ds =>
                    have hc : isDigitc c = true := by
                      apply natChars_digits m
                      rw [hnc]
                      exact List.mem_cons_self _ _
                    have hs : sJson d (Json.num (Int.ofNat m)) = c :: ds := by
                      rw [show sJson d (Json.num (Int.ofNat m)) = natChars m
                        from rfl, hnc]
                    have hsw : skipWs (pre ++
                        (sJson d (Json.num (Int.ofNat m)) ++ rest)) =
                        c :: (ds ++ rest) := by
                      rw [skipWs_ws_left pre _ hpre, hs]
                      exact skipWs_not_ws _ (digit_not_ws hc)
                    simp only [parseVal, hsw]
                    have h1 : ¬c = 'n' := digit_ne hc 'n' (by decide)
                    have h2 : ¬c = 't' := digit_ne hc 't' (by decide)
                    have h3 : ¬c = 'f' := digit_ne hc 'f' (by decide)
                    have h4 : ¬c = '"' := digit_ne hc '"' (by decide)
                    have h5 : ¬c = '-' := digit_ne hc '-' (by decide)
                    have h6 : ¬c = '[' := digit_ne hc '[' (by decide)
                    have h7 : ¬c = lbrace := digit_ne hc lbrace (by decide)
                    simp only [h1, h2, h3, h4, h5, h6, h7, hc, if_false,
                      if_true, if_neg, if_pos]
                    have hpn : parseNat (c :: (ds ++ rest)) = some (m, rest) := by
                      rw [show c :: (ds ++ rest) = natChars m ++ rest by
                        rw [hnc]; simp]
                      exact parseNat_natChars m rest hrest
                    rw [hpn]
                    rfl
            | negSucc m =>
                have hsw : skipWs (pre ++
                    (sJson d (Json.num (Int.negSucc m)) ++ rest)) =
                    '-' :: (natChars (m + 1) ++ rest) := by
                  rw [skipWs_ws_left pre _ hpre]
                  rw [show sJson d (Json.num (Int.negSucc m)) =
                    '-' :: natChars (m + 1) from rfl]
                  exact skipWs_not_ws _ (by decide)
                simp only [parseVal, hsw]
                rw [if_neg (by decide), if_neg (by decide),
                  if_neg (by decide), if_neg (by decide), if_pos trivial]
                rw [parseNat_natChars (m + 1) rest hrest]
                have hneg : (-(((m + 1 : Nat) : Int))) = Int.negSucc m := by
                  rw [Int.negSucc_eq]
                  push_cast
                  ring
                show some (Json.num (-(((m + 1 : Nat) : Int))), rest) =
                  some (Json.num (Int.negSucc m), rest)
                rw [hneg]
        | str s =>
            have hsw : skipWs (pre ++ (sJson d (Json.str s) ++ rest)) =
                '"' :: (escChars s ++ '"' :: rest) := by
              rw [skipWs_ws_left pre _ hpre]
              rw [show sJson d (Json.str s) ++ rest =
                '"' :: (escChars s ++ '"' :: rest) by
                  simp [sJson, List.append_assoc]]
              exact skipWs_not_ws _ (by decide)
            simp only [parseVal, hsw]
            rw [if_neg (by decide), if_neg (by decide), if_neg (by decide),
              if_pos trivial]
            have hlen : s.length < f := by
              simp only [wJson] at hfuel
              omega
            rw [parseStr_esc s f rest hlen]
            rfl
        | arr xs =>
            cases xs with
            | nil =>
                have hsw : skipWs (pre ++ (sJson d (Json.arr []) ++ rest)) =
                    '[' :: ']' :: rest := by
                  rw [skipWs_ws_left pre _ hpre]
                  exact skipWs_not_ws _ (by decide)
                simp only [parseVal, hsw]
                rw [if_neg (by decide), if_neg (by decide),
                  if_neg (by decide), if_neg (by decide),
                  if_neg (by decide), if_pos trivial]
                show (if (']' : Char) = ']' then some (Json.arr [], rest)
                  else Option.map (fun p => (Json.arr p.1, p.2))
                    (parseItems f (']' :: rest))) = some (Json.arr [], rest)
                rw [if_pos rfl]
            | cons y ys =>
                obtain ⟨c2, l2, hc2, hc2ws, hc2br⟩ := sJson_head (d + 1) y
                have hsw : skipWs (pre ++
                    (sJson d (Json.arr (y :: ys)) ++ rest)) =
                    '[' :: ('\n' :: (ind (d + 1) ++ (sJson (d + 1) y ++
                      (sItemsTail (d + 1) ys ++
                        '\n' :: (ind d ++ ']' :: rest))))) := by
                  rw [skipWs_ws_left pre _ hpre]
                  rw [show sJson d (Json.arr (y :: ys)) ++ rest =
                    '[' :: ('\n' :: (ind (d + 1) ++ (sJson (d + 1) y ++
                      (sItemsTail (d + 1) ys ++
                        '\n' :: (ind d ++ ']' :: rest))))) by
                    simp [sJson, List.append_assoc]]
                  exact skipWs_not_ws _ (by decide)
                simp only [parseVal, hsw]
                rw [if_neg (by decide), if_neg (by decide),
                  if_neg (by decide), if_neg (by decide),
                  if_neg (by decide), if_pos trivial]
                have hsw2 : skipWs ('\n' :: (ind (d + 1) ++
                    (sJson (d + 1) y ++ (sItemsTail (d + 1) ys ++
                      '\n' :: (ind d ++ ']' :: rest))))) =
                    c2 :: (l2 ++ (sItemsTail (d + 1) ys ++
                      '\n' :: (ind d ++ ']' :: rest))) := by
                  rw [show ('\n' :: (ind (d + 1) ++ (sJson (d + 1) y ++
                    (sItemsTail (d + 1) ys ++ '\n' :: (ind d ++ ']' :: rest))))
                      : List Char) =
                    ('\n' :: ind (d + 1)) ++ (sJson (d + 1) y ++
                      (sItemsTail (d + 1) ys ++
                        '\n' :: (ind d ++ ']' :: rest))) by simp]
                  rw [skipWs_ws_left]
                  · rw [hc2]
                    rw [List.cons_append]
                    exact skipWs_not_ws _ hc2ws
                  · intro c hc
                    rcases List.mem_cons.mp hc with rfl | hc
                    · rfl
                    · exact ind_ws (d + 1) c hc
                rw [hsw2]
                show (if c2 = ']' then
                    some (Json.arr [], l2 ++ (sItemsTail (d + 1) ys ++
                      '\n' :: (ind d ++ ']' :: rest)))
                  else Option.map (fun p => (Json.arr p.1, p.2))
                    (parseItems f (c2 :: (l2 ++ (sItemsTail (d + 1) ys ++
                      '\n' :: (ind d ++ ']' :: rest)))))) =
                  some (Json.arr (y :: ys), rest)
                rw [if_neg hc2br]
                have hitems := parse_items_aux ys y f (d + 1) d [] rest
                  (by
                    intro z hz fuel' d' pre' rest' hws hwle hrk
                    refine ihW z fuel' d' pre' rest' ?_ hws hwle hrk
                    rcases hz with rfl | hz
                    · have := wItems_pos ys
                      simp only [wJson, wItems] at hW
                      omega
                    · have := wJson_le_wItems ys z hz
                      have := wJson_pos y
                      simp only [wJson, wItems] at hW
                      omega)
                  (by intro c hc; cases hc)
                  (by simp only [wJson] at hfuel; omega)
                simp only [List.nil_append] at hitems
                rw [show c2 :: (l2 ++ (sItemsTail (d + 1) ys ++
                  '\n' :: (ind d ++ ']' :: rest))) =
                  sJson (d + 1) y ++ (sItemsTail (d + 1) ys ++
                    '\n' :: (ind d ++ ']' :: rest)) by rw [hc2]; simp]
                rw [hitems]
                rfl
        | obj es =>
            cases es with
            | nil =>
                have hsw : skipWs (pre ++ (sJson d (Json.obj []) ++ rest)) =
                    lbrace :: rbrace :: rest := by
                  rw [skipWs_ws_left pre _ hpre]
                  exact skipWs_not_ws _ (by decide)
                simp only [parseVal, hsw]
                rw [if_neg (by decide), if_neg (by decide),
                  if_neg (by decide), if_neg (by decide),
                  if_neg (by decide), if_neg (by decide), if_pos trivial]
                show (if rbrace = rbrace then some (Json.obj [], rest)
                  else Option.map (fun p => (Json.obj p.1, p.2))
                    (parseEntries f (rbrace :: rest))) =
                  some (Json.obj [], rest)
                rw [if_pos rfl]
            | cons e es =>
                obtain ⟨k, v⟩ := e
                have hsw : skipWs (pre ++
                    (sJson d (Json.obj ((k, v) :: es)) ++ rest)) =
                    lbrace :: ('\n' :: (ind (d + 1) ++
                      (sEntry (d + 1) (k, v) ++ (sEntriesTail (d + 1) es ++
                        '\n' :: (ind d ++ rbrace :: rest))))) := by
                  rw [skipWs_ws_left pre _ hpre]
                  rw [show sJson d (Json.obj ((k, v) :: es)) ++ rest =
                    lbrace :: ('\n' :: (ind (d + 1) ++
                      (sEntry (d + 1) (k, v) ++ (sEntriesTail (d + 1) es ++
                        '\n' :: (ind d ++ rbrace :: rest))))) by
                    simp [sJson, List.append_assoc]]
                  exact skipWs_not_ws _ (by decide)
                simp only [parseVal, hsw]
                rw [if_neg (by decide), if_neg (by decide),
                  if_neg (by decide), if_neg (by decide),
                  if_neg (by decide), if_neg (by decide), if_pos trivial]
                have hsw2 : skipWs ('\n' :: (ind (d + 1) ++
                    (sEntry (d + 1) (k, v) ++ (sEntriesTail (d + 1) es ++
                      '\n' :: (ind d ++ rbrace :: rest))))) =
                    '"' :: ((escChars k ++ '"' :: ':' :: ' ' ::
                      sJson (d + 1) v) ++ (sEntriesTail (d + 1) es ++
                      '\n' :: (ind d ++ rbrace :: rest))) := by
                  rw [show ('\n' :: (ind (d + 1) ++
                    (sEntry (d + 1) (k, v) ++ (sEntriesTail (d + 1) es ++
                      '\n' :: (ind d ++ rbrace :: rest)))) : List Char) =
                    ('\n' :: ind (d + 1)) ++ (sEntry (d + 1) (k, v) ++
                      (sEntriesTail (d + 1) es ++
                        '\n' :: (ind d ++ rbrace :: rest))) by simp]
                  rw [skipWs_ws_left]
                  · simp only [sEntry, List.cons_append]
                    exact skipWs_not_ws _ (by decide)
                  · intro c hc
                    rcases List.mem_cons.mp hc with rfl | hc
                    · rfl
                    · exact ind_ws (d + 1) c hc
                rw [hsw2]
                show (if ('"' : Char) = rbrace then
                    some (Json.obj [], (escChars k ++ '"' :: ':' :: ' ' ::
                      sJson (d + 1) v) ++ (sEntriesTail (d + 1) es ++
                      '\n' :: (ind d ++ rbrace :: rest)))
                  else Option.map (fun p => (Json.obj p.1, p.2))
                    (parseEntries f ('"' :: ((escChars k ++ '"' :: ':' ::
                      ' ' :: sJson (d + 1) v) ++ (sEntriesTail (d + 1) es ++
                      '\n' :: (ind d ++ rbrace :: rest)))))) =
                  some (Json.obj ((k, v) :: es), rest)
                rw [if_neg (by decide)]
                have hentries := parse_entries_aux es (k, v) f (d + 1) d
                  [] rest
                  (by
                    intro kv hkv fuel' d' pre' rest' hws hwle hrk
                    refine ihW kv.2 fuel' d' pre' rest' ?_ hws hwle hrk
                    rcases hkv with rfl | hkv
                    · have := wEntries_pos es
                      simp only [wJson, wEntries] at hW
                      have h2 : wJson ((k, v)).2 = wJson v := rfl
                      omega
                    · have := wJson_le_wEntries es kv hkv
                      have := wJson_pos v
                      simp only [wJson, wEntries] at hW
                      omega)
                  (by intro c hc; cases hc)
                  (by simp only [wJson] at hfuel; omega)
                simp only [List.nil_append] at hentries
                rw [show ('"' :: ((escChars k ++ '"' :: ':' :: ' ' ::
                    sJson (d + 1) v) ++ (sEntriesTail (d + 1) es ++
                    '\n' :: (ind d ++ rbrace :: rest))) : List Char) =
                  sEntry (d + 1) (k, v) ++ (sEntriesTail (d + 1) es ++
                    '\n' :: (ind d ++ rbrace :: rest)) by
                  simp [sEntry]]
                rw [hentries]
                rfl

/-- Escaping one character emits at least one character. -/
theorem escChar_len (c : Char) : 1 ≤ (escChar c).length := by
  unfold escChar
  repeat' split
  all_goals simp

/-- Escaping never shortens a string body. -/
theorem escChars_len (s : List Char) : s.length ≤ (escChars s).length := by
  induction s with
  | nil => simp [escChars]
  | cons c cs ih =>
      have := escChar_len c
      simp only [escChars, List.length_append, List.length_cons]
      omega

/-- Integer rendering is nonempty. -/
theorem intChars_len (n : Int) : 1 ≤ (intChars n).length := by
  cases n with
  | ofNat m =>
      cases h : natChars m with
      | nil => exact absurd h (natChars_ne_nil m)
      | cons c l => simp [intChars, h]
  | negSucc m => simp [intChars]

/-- Printed array tails are at least one shorter than their fuel weight. -/
theorem sItemsTail_len (d : Nat) (xs : List Json)
    (h : ∀ y ∈ xs, wJson y ≤ (sJson d y).length) :
    wItems xs ≤ (sItemsTail d xs).length + 1 := by
  induction xs with
  | nil => simp [wItems, sItemsTail]
  | cons y ys ih =>
      have hy := h y (List.mem_cons_self y ys)
      have hys := ih (fun z hz => h z (List.mem_cons_of_mem y hz))
      simp only [wItems, sItemsTail, List.length_cons, List.length_append]
      omega

/-- Printed entry tails are at least one shorter than their fuel weight. -/
theorem sEntriesTail_len (d : Nat) (es : List (List Char × Json))
    (h : ∀ e ∈ es, wJson e.2 ≤ (sJson d e.2).length) :
    wEntries es ≤ (sEntriesTail d es).length + 1 := by
  induction es with
  | nil => simp [wEntries, sEntriesTail]
  | cons e es ih =>
      obtain ⟨k, v⟩ := e
      have hv := h (k, v) (List.mem_cons_self _ _)
      have hes := ih (fun z hz => h z (List.mem_cons_of_mem _ hz))
      have hk := escChars_len k
      simp only [wEntries, sEntriesTail, sEntry, List.length_cons,
        List.length_append] at *
      omega

/-- The printed form of a value is at least as long as its fuel weight,
so `cs.length + 1` fuel always suffices to reparse a printed value. -/
theorem sJson_len : ∀ (W : Nat) (x : Json) (d : Nat), wJson x < W →
    wJson x ≤ (sJson d x).length := by
  intro W
  induction W with
  | zero => intro x d hW; omega
  | succ W ihW =>
      intro x d hW
      cases x with
      | null => simp [wJson, sJson]
      | bool b => cases b <;> simp [wJson, sJson]
      | num n =>
          have := intChars_len n
          simp only [wJson, sJson]
          omega
      | str s =>
          have := escChars_len s
          simp only [wJson, sJson, List.length_cons, List.length_append]
          omega
      | arr xs =>
          cases xs with
          | nil => simp [wJson, wItems, sJson]
          | cons y ys =>
              have hyW : wJson y < W := by
                have := wItems_pos ys
                simp only [wJson, wItems] at hW
                omega
              have hy := ihW y (d + 1) hyW
              have hys := sItemsTail_len (d + 1) ys (fun z hz => by
                refine ihW z (d + 1) ?_
                have := wJson_le_wItems ys z hz
                have := wJson_pos y
                simp only [wJson, wItems] at hW
                omega)
              simp only [wJson, wItems, sJson, List.length_cons,
                List.length_append]
              omega
      | obj es =>
          cases es with
          | nil => simp [wJson, wEntries, sJson]
          | cons e es =>
              obtain ⟨k, v⟩ := e
              have hvW : wJson v < W := by
                have := wEntries_pos es
                simp only [wJson, wEntries] at hW
                omega
              have hv := ihW v (d + 1) hvW
              have hes := sEntriesTail_len (d + 1) es (fun z hz => by
                refine ihW z.2 (d + 1) ?_
                have := wJson_le_wEntries es z hz
                have := wJson_pos v
                simp only [wJson, wEntries] at hW
                omega)
              have hk := escChars_len k
              simp only [wJson, wEntries, sJson, sEntry, List.length_cons,
                List.length_append] at *
              omega

/-- The round trip at the exact shape `readConfig` sees after a write. -/
theorem parseDoc_stringify (x : Json) :
    parseDoc (stringifyDoc x) = some x := by
  have hlen : wJson x ≤ (sJson 0 x).length :=
    sJson_len (wJson x + 1) x 0 (Nat.lt_succ_self _)
  have hrun := parse_print_aux (wJson x + 1) x
    ((stringifyDoc x).length + 1) 0 [] ['\n']
    (Nat.lt_succ_self _) (by intro c hc; cases hc)
    (by
      simp only [stringifyDoc, List.length_append, List.length_cons,
        List.length_nil]
      omega)
    (by intro c l h; cases h; rfl)
  simp only [List.nil_append, stringifyDoc] at hrun
  simp only [parseDoc, stringifyDoc]
  rw [hrun]
  rfl

/-- Witness for C9 across a day boundary: the last millisecond of
2026-10-11 against the first of 2026-10-12. -/
theorem C9_backup_dir_names_sort_chronologically_witness :
    (⟨2026, 10, 11, 23, 59, 59, 999⟩ : DateTime).wf ∧
    (⟨2026, 10, 12, 0, 0, 0, 0⟩ : DateTime).wf ∧
    (DateTime.lt ⟨2026, 10, 11, 23, 59, 59, 999⟩ ⟨2026, 10, 12, 0, 0, 0, 0⟩ →
      backupNameChars ⟨2026, 10, 11, 23, 59, 59, 999⟩ <
        backupNameChars ⟨2026, 10, 12, 0, 0, 0, 0⟩) :=
  ⟨by decide, by decide,
    (C9_backup_dir_names_sort_chronologically _ _ (by decide) (by decide)).1⟩

/-! ## Config-store lemmas (claims C4, C5, C7, C10) -/

/-- A `find?` over a `filter` that never drops a match. -/
theorem find_filter_of_imp {α : Type} (l : List α) (f g : α → Bool)
    (h : ∀ a, g a = true → f a = true) :
    (l.filter f).find? g = l.find? g := by
  induction l with
  | nil => rfl
  | cons a l ih =>
      by_cases hf : f a = true
      · by_cases hg : g a = true
        · simp [List.filter_cons, hf, List.find?_cons, hg]
        · simp [List.filter_cons, hf, List.find?_cons, hg, ih]
      · have hg : ¬ g a = true := fun hg => hf (h a hg)
        simp [List.filter_cons, hf, List.find?_cons, hg, ih]

/-- Reading back a just-written file. -/
theorem fsGet_set_same (fs : List (FPath × List Char)) (p : FPath)
    (v : List Char) : fsGet (fsSet fs p v) p = some v := by
  simp [fsGet, fsSet, List.find?_cons]

/-- Writing one file leaves the others untouched. -/
theorem fsGet_set_ne (fs : List (FPath × List Char)) (p q : FPath)
    (v : List Char) (h : q ≠ p) : fsGet (fsSet fs p v) q = fsGet fs q := by
  simp only [fsGet, fsSet]
  rw [List.find?_cons_of_neg]
  simp only [decide_eq_true_eq]
  exact fun hh => h hh.symm

/-- Deleting one file leaves the others untouched. -/
theorem fsGet_del_ne (fs : List (FPath × List Char)) (p q : FPath)
    (h : q ≠ p) : fsGet (fsDel fs p) q = fsGet fs q := by
  simp only [fsGet, fsDel]
  rw [find_filter_of_imp]
  intro kv hkv
  simp only [decide_eq_true_eq] at hkv
  simp [hkv, h]

/-- After `invalidateCache` the entry is gone whatever the clock says. -/
theorem cacheGet_del_same (cache : List (FPath × Json × Nat)) (p : FPath)
    (now : Nat) : cacheGet (cacheDel cache p) p now = none := by
  have hfind : (cacheDel cache p).find? (fun kv => decide (kv.1 = p)) =
      none := by
    rw [List.find?_eq_none]
    intro kv hkv
    have := (List.mem_filter.mp hkv).2
    simpa using this
  simp [cacheGet, hfind]

/-- `createBackup` names the backup after the wall clock. -/
theorem createBackup_fst (src : ConfigSource) (fs : List (FPath × List Char))
    (t : DateTime) :
    (createBackup src fs t).1 = FPath.backup (backupNameChars t) src := by
  unfold createBackup
  cases fsGet fs (FPath.cfg src) <;> rfl

/-- `createBackup` snapshots the current content, or the `"null\n"`
sentinel when there is no current file. -/
theorem createBackup_snd (src : ConfigSource) (fs : List (FPath × List Char))
    (t : DateTime) :
    (createBackup src fs t).2 =
      fsSet fs (FPath.backup (backupNameChars t) src)
        ((fsGet fs (FPath.cfg src)).getD ['n', 'u', 'l', 'l', '\n']) := by
  unfold createBackup
  cases fsGet fs (FPath.cfg src) <;> rfl

/-- Deleting the path just written deletes it from the original too. -/
theorem fsDel_set_same (fs : List (FPath × List Char)) (p : FPath)
    (v : List Char) : fsDel (fsSet fs p v) p = fsDel fs p := by
  simp [fsDel, fsSet, List.filter_cons]

/-- The file system `writeConfig` leaves behind: the new content at the
live path, over the backed-up previous state with the tmp file removed. -/
theorem writeConfig_fs (src : ConfigSource) (x : Json) (st : Store)
    (t : DateTime) :
    (writeConfig src x st t).2.fs =
      fsSet (fsDel (createBackup src st.fs t).2 (FPath.tmp src))
        (FPath.cfg src) (stringifyDoc x) := by
  unfold writeConfig fsRename
  simp only [fsGet_set_same, fsDel_set_same]

/-- `writeConfig` invalidates the read-cache entry of the live path. -/
theorem writeConfig_cache (src : ConfigSource) (x : Json) (st : Store)
    (t : DateTime) :
    (writeConfig src x st t).2.cache = cacheDel st.cache (FPath.cfg src) :=
  rfl

/-- `writeConfig` returns the backup path it created. -/
theorem writeConfig_fst (src : ConfigSource) (x : Json) (st : Store)
    (t : DateTime) :
    (writeConfig src x st t).1 = FPath.backup (backupNameChars t) src := by
  unfold writeConfig
  exact createBackup_fst src st.fs t

/-- Removing a non-backup path does not change the backup names on disk. -/
theorem filterMap_bname_del_tmp (fs : List (FPath × List Char))
    (s : ConfigSource) :
    (fsDel fs (FPath.tmp s)).filterMap bname = fs.filterMap bname := by
  induction fs with
  | nil => rfl
  | cons kv fs ih =>
      by_cases hkp : kv.1 = FPath.tmp s
      · have hb : bname kv = none := by simp [bname, hkp]
        simp [fsDel, List.filter_cons, hkp, List.filterMap_cons, hb, ih,
          fsDel] at *
      · simp only [fsDel, List.filter_cons, hkp, decide_False, Bool.not_false,
          if_pos trivial] at *
        simp only [List.filterMap_cons]
        cases bname kv with
        | none => exact ih
        | some ts => simp [ih]

/-- The backup names after a `writeConfig`: the fresh name in front of the
previous names. -/
theorem filterMap_bname_writeConfig (src : ConfigSource) (x : Json)
    (st : Store) (t : DateTime) :
    (writeConfig src x st t).2.fs.filterMap bname =
      backupNameChars t :: st.fs.filterMap bname := by
  rw [writeConfig_fs, createBackup_snd]
  simp only [fsSet, List.filterMap_cons]
  have hcfg : bname ((FPath.cfg src, stringifyDoc x)) = none := rfl
  rw [hcfg]
  rw [show (fsDel ((FPath.backup (backupNameChars t) src,
      (fsGet st.fs (FPath.cfg src)).getD ['n', 'u', 'l', 'l', '\n']) ::
        st.fs) (FPath.tmp src)) =
    (FPath.backup (backupNameChars t) src,
      (fsGet st.fs (FPath.cfg src)).getD ['n', 'u', 'l', 'l', '\n']) ::
      fsDel st.fs (FPath.tmp src) by
    simp [fsDel, List.filter_cons]]
  simp only [List.filterMap_cons]
  rw [show bname ((FPath.backup (backupNameChars t) src,
      (fsGet st.fs (FPath.cfg src)).getD ['n', 'u', 'l', 'l', '\n'])) =
    some (backupNameChars t) from rfl]
  rw [filterMap_bname_del_tmp]

/-- `entries.sort()` really sorts by the JavaScript string order. -/
theorem sorted_sortNames (l : List (List Char)) :
    List.Sorted nameLe (sortNames l) :=
  List.sorted_insertionSort nameLe l

/-- Sorting permutes, so membership is unchanged. -/
theorem mem_sortNames (a : List Char) (l : List (List Char)) :
    a ∈ sortNames l ↔ a ∈ l :=
  (List.perm_insertionSort nameLe l).mem_iff

/-- Walking a sorted list backwards, the first hit is the maximum whenever
the maximum satisfies the predicate. -/
theorem find_max_aux : ∀ (l : List (List Char)),
    List.Sorted nameLe l → ∀ m, m ∈ l → (∀ y ∈ l, y ≠ m → y < m) →
    ∀ p : List Char → Bool, p m = true → l.reverse.find? p = some m := by
  intro l
  induction l with
  | nil => intro _ m hm; cases hm
  | cons x xs ih =>
      intro hs m hm hall p hp
      by_cases hmx : m ∈ xs
      · have hfind := ih (List.Sorted.of_cons hs) m hmx
          (fun y hy hne => hall y (List.mem_cons_of_mem x hy) hne) p hp
        simp only [List.reverse_cons]
        simp [List.find?_append, hfind]
      · have hxm : x = m := by
          rcases List.mem_cons.mp hm with h | h
          · exact h.symm
          · exact absurd h hmx
        cases xs with
        | nil =>
            subst hxm
            simp [List.find?_cons, hp]
        | cons z zs =>
            exfalso
            have hzs : z < m := hall z (by simp) (by
              intro hzm
              exact hmx (hzm ▸ List.mem_cons_self z zs))
            have hxz : nameLe x z := (List.sorted_cons.mp hs).1 z (by simp)
            rw [hxm] at hxz
            exact hxz hzs

/-- `findLatestBackup` returns the greatest backup name on disk when that
name holds a file for the source and dominates every other name. -/
theorem findLatestBackup_eq (src : ConfigSource)
    (fs : List (FPath × List Char)) (m : List Char)
    (hmem : m ∈ fs.filterMap bname)
    (hall : ∀ y ∈ fs.filterMap bname, nameLe y m)
    (hp : (fsGet fs (FPath.backup m src)).isSome = true) :
    findLatestBackup src fs = some (FPath.backup m src) := by
  unfold findLatestBackup
  rw [find_max_aux (sortNames (backupDirs fs)) (sorted_sortNames _) m
    (by rw [mem_sortNames]; exact List.mem_dedup.mpr hmem)
    (by
      intro y hy hne
      have hy' : y ∈ fs.filterMap bname :=
        List.mem_dedup.mp ((mem_sortNames y _).mp hy)
      exact lt_of_le_of_ne (not_lt.mp (hall y hy')) hne)
    _ hp]
  rfl

/-- `readConfig` behavior on a cache miss, split by the file state. -/
theorem readConfig_miss (src : ConfigSource) (st : Store) (now : Nat)
    (hmiss : cacheGet st.cache (FPath.cfg src) now = none) :
    (fsGet st.fs (FPath.cfg src) = none →
      readConfig src st now = (Except.error notFoundErr, st)) ∧
    (∀ raw, fsGet st.fs (FPath.cfg src) = some raw → parseDoc raw = none →
      readConfig src st now = (Except.error invalidErr, st)) ∧
    (∀ raw v, fsGet st.fs (FPath.cfg src) = some raw →
      parseDoc raw = some v →
      readConfig src st now = (Except.ok v,
        { st with cache := cacheSet st.cache (FPath.cfg src) v now })) := by
  refine ⟨?_, ?_, ?_⟩
  · intro hfs
    simp [readConfig, hmiss, hfs]
  · intro raw hfs hp
    simp [readConfig, hmiss, hfs, hp]
  · intro raw v hfs hp
    simp [readConfig, hmiss, hfs, hp]

/-- C7 (amended): when the read is not served by the in-process read cache
(`getCached` misses), `readConfig` fails with the 404 `ConfigError` exactly
when the config file is absent, with the distinct 422 `ConfigError` exactly
when the file exists but does not parse as JSON, and returns the parsed
value on success; the two failures stay distinguishable by status code. -/
theorem C7_read_errors_match_file_state (src : ConfigSource) (st : Store)
    (now : Nat)
    (hmiss : cacheGet st.cache (FPath.cfg src) now = none) :
    ((readConfig src st now).1 = Except.error notFoundErr ↔
      fsGet st.fs (FPath.cfg src) = none) ∧
    ((readConfig src st now).1 = Except.error invalidErr ↔
      ∃ raw, fsGet st.fs (FPath.cfg src) = some raw ∧ parseDoc raw = none) ∧
    (∀ raw v, fsGet st.fs (FPath.cfg src) = some raw →
      parseDoc raw = some v → (readConfig src st now).1 = Except.ok v) ∧
    notFoundErr.status = 404 ∧ invalidErr.status = 422 := by
  obtain ⟨h404, h422, hok⟩ := readConfig_miss src st now hmiss
  refine ⟨?_, ?_, ?_, rfl, rfl⟩
  · constructor
    · intro hr
      cases hfs : fsGet st.fs (FPath.cfg src) with
      | none => rfl
      | some raw =>
          cases hp : parseDoc raw with
          | none =>
              rw [h422 raw hfs hp] at hr
              exact absurd (Except.error.inj hr) (by decide)
          | some v =>
              rw [hok raw v hfs hp] at hr
              exact Except.noConfusion hr
    · intro hfs
      rw [h404 hfs]
  · constructor
    · intro hr
      cases hfs : fsGet st.fs (FPath.cfg src) with
      | none =>
          rw [h404 hfs] at hr
          exact absurd (Except.error.inj hr) (by decide)
      | some raw =>
          cases hp : parseDoc raw with
          | none => exact ⟨raw, rfl, hp⟩
          | some v =>
              rw [hok raw v hfs hp] at hr
              exact Except.noConfusion hr
    · rintro ⟨raw, hfs, hp⟩
      rw [h422 raw hfs hp]
  · intro raw v hfs hp
    rw [hok raw v hfs hp]

/-- Witness for C7 at the empty store: a cache miss on an absent file is
reported as the 404 error. -/
theorem C7_read_errors_match_file_state_witness :
    cacheGet ([] : List (FPath × Json × Nat))
      (FPath.cfg ConfigSource.opencode) 0 = none ∧
    ((readConfig ConfigSource.opencode ⟨[], []⟩ 0).1 =
        Except.error notFoundErr ↔
      fsGet ([] : List (FPath × List Char))
        (FPath.cfg ConfigSource.opencode) = none) :=
  ⟨rfl, (C7_read_errors_match_file_state ConfigSource.opencode ⟨[], []⟩ 0
    rfl).1⟩

/-- C7 counterexample: a rollback does not invalidate the read cache, so a
`readConfig` within the cache TTL succeeds even though the on-disk file is
not valid JSON — the claimed "422 exactly when the file exists but does not
parse" is false of the code as a whole.  Scenario: the live file holds
`not json`; `writeConfig` backs it up and writes `1`; a read caches `1`;
`rollbackConfig` restores `not json` on disk; a read 100 ms later still
returns `1` from the cache. -/
theorem C7_cached_read_masks_invalid_file :
    ((rollbackConfig ConfigSource.opencode
        (readConfig ConfigSource.opencode
          ((writeConfig ConfigSource.opencode (Json.num 1)
            ⟨[(FPath.cfg ConfigSource.opencode,
               ('n' :: 'o' :: 't' :: ' ' :: 'j' :: 's' :: 'o' :: 'n' :: []))],
              []⟩ ⟨2026, 1, 1, 0, 0, 0, 0⟩).2) 100).2).map
      (fun pr => ((readConfig ConfigSource.opencode pr.2 200).1,
        fsGet pr.2.fs (FPath.cfg ConfigSource.opencode)))) =
    Except.ok (Except.ok (Json.num 1),
      some ('n' :: 'o' :: 't' :: ' ' :: 'j' :: 's' :: 'o' :: 'n' :: [])) ∧
    parseDoc ('n' :: 'o' :: 't' :: ' ' :: 'j' :: 's' :: 'o' :: 'n' :: []) =
      none :=
  ⟨by rfl, by rfl⟩

/-- C10: a successful `rollbackConfig` always leaves a config file at the
live path; in particular, rolling back the `"null\n"` sentinel backup
(created by a write when no prior file existed) restores a file whose
parsed content is JSON `null`, so a subsequent `readConfig` returns `null`
instead of failing with the 404 not-found error: concretely, from an empty
store, write `7` then roll back, and the read yields `null`. -/
theorem C10_rollback_restores_file_even_for_sentinel :
    (∀ (src : ConfigSource) (st : Store) (pr : FPath × Store),
      rollbackConfig src st = Except.ok pr →
      ∃ c, fsGet pr.2.fs (FPath.cfg src) = some c) ∧
    ((rollbackConfig ConfigSource.opencode
        ((writeConfig ConfigSource.opencode (Json.num 7) ⟨[], []⟩
          ⟨2026, 1, 1, 0, 0, 0, 0⟩).2)).map
      (fun pr => ((readConfig ConfigSource.opencode pr.2 0).1,
        fsGet pr.2.fs (FPath.cfg ConfigSource.opencode))) =
      Except.ok (Except.ok Json.null,
        some ('n' :: 'u' :: 'l' :: 'l' :: '\n' :: []))) := by
  constructor
  · intro src st pr hrb
    unfold rollbackConfig at hrb
    split at hrb
    · exact Except.noConfusion hrb
    · split at hrb
      · exact Except.noConfusion hrb
      · next c hget =>
            refine ⟨c, ?_⟩
            have hpr := Except.ok.inj hrb
            rw [← hpr]
            show fsGet (fsRename (fsSet st.fs (FPath.tmp src) c)
              (FPath.tmp src) (FPath.cfg src)) (FPath.cfg src) = some c
            rw [show fsRename (fsSet st.fs (FPath.tmp src) c)
              (FPath.tmp src) (FPath.cfg src) =
              fsSet (fsDel (fsSet st.fs (FPath.tmp src) c) (FPath.tmp src))
                (FPath.cfg src) c by
              unfold fsRename
              rw [fsGet_set_same]]
            exact fsGet_set_same _ _ _
  · rfl

/-- Witness for C10 on a one-backup store: the restored file exists. -/
theorem C10_rollback_restores_file_even_for_sentinel_witness :
    ∃ c, fsGet [(FPath.cfg ConfigSource.opencode, ['n', 'u', 'l', 'l', '\n']),
      (FPath.backup ['2', '0'] ConfigSource.opencode,
        ['n', 'u', 'l', 'l', '\n'])]
      (FPath.cfg ConfigSource.opencode) = some c :=
  C10_rollback_restores_file_even_for_sentinel.1 ConfigSource.opencode
    ⟨[(FPath.backup ['2', '0'] ConfigSource.opencode,
      ['n', 'u', 'l', 'l', '\n'])], []⟩
    (FPath.backup ['2', '0'] ConfigSource.opencode,
      ⟨[(FPath.cfg ConfigSource.opencode, ['n', 'u', 'l', 'l', '\n']),
        (FPath.backup ['2', '0'] ConfigSource.opencode,
          ['n', 'u', 'l', 'l', '\n'])], []⟩)
    (by rfl)

/-- C4 (amended): when the wall-clock backup name is fresh — no existing
backup directory carries the same millisecond timestamp name —
`writeConfig` creates exactly one new backup (the new name in front of the
unchanged previous names) holding the prior on-disk content (or the
`"null\n"` sentinel when there was none), and a subsequent `readConfig`
round-trips: the write invalidated the cache entry, so the read is served
from disk and returns exactly the written value. -/
theorem C4_write_backs_up_once_and_roundtrips (src : ConfigSource) (x : Json)
    (st : Store) (t : DateTime) (now : Nat)
    (hfresh : backupNameChars t ∉ backupDirs st.fs) :
    backupDirs (writeConfig src x st t).2.fs =
      backupNameChars t :: backupDirs st.fs ∧
    fsGet (writeConfig src x st t).2.fs
        (FPath.backup (backupNameChars t) src) =
      some ((fsGet st.fs (FPath.cfg src)).getD ['n', 'u', 'l', 'l', '\n']) ∧
    (readConfig src (writeConfig src x st t).2 now).1 = Except.ok x := by
  have hfresh' : backupNameChars t ∉ st.fs.filterMap bname := fun hmem =>
    hfresh (List.mem_dedup.mpr hmem)
  refine ⟨?_, ?_, ?_⟩
  · unfold backupDirs
    rw [filterMap_bname_writeConfig, List.dedup_cons_of_not_mem hfresh']
  · rw [writeConfig_fs, createBackup_snd]
    rw [fsGet_set_ne _ _ _ _ (by intro h; exact FPath.noConfusion h)]
    rw [fsGet_del_ne _ _ _ (by intro h; exact FPath.noConfusion h)]
    exact fsGet_set_same _ _ _
  · have hmiss : cacheGet (writeConfig src x st t).2.cache
        (FPath.cfg src) now = none := by
      rw [writeConfig_cache]
      exact cacheGet_del_same _ _ _
    have hfs : fsGet (writeConfig src x st t).2.fs (FPath.cfg src) =
        some (stringifyDoc x) := by
      rw [writeConfig_fs]
      exact fsGet_set_same _ _ _
    rw [(readConfig_miss src _ now hmiss).2.2 (stringifyDoc x) x hfs
      (parseDoc_stringify x)]

/-- Witness for C4 from the empty store at a concrete clock. -/
theorem C4_write_backs_up_once_and_roundtrips_witness :
    backupNameChars ⟨2026, 1, 1, 0, 0, 0, 0⟩ ∉
      backupDirs (([] : List (FPath × List Char))) ∧
    (readConfig ConfigSource.opencode
      (writeConfig ConfigSource.opencode (Json.num 3) ⟨[], []⟩
        ⟨2026, 1, 1, 0, 0, 0, 0⟩).2 0).1 = Except.ok (Json.num 3) :=
  ⟨by decide,
    (C4_write_backs_up_once_and_roundtrips ConfigSource.opencode
      (Json.num 3) ⟨[], []⟩ ⟨2026, 1, 1, 0, 0, 0, 0⟩ 0 (by decide)).2.2⟩

/-- C4 counterexample: two writes in the same millisecond share a backup
directory name, so the second write creates no new backup — the set of
backup directories is unchanged and the snapshot taken by the first write
(the original `0` document) is shadowed by the second write's snapshot of
`1`, violating "always produces exactly one new backup". -/
theorem C4_same_ms_second_write_creates_no_backup :
    backupDirs ((writeConfig ConfigSource.opencode (Json.num 2)
        ((writeConfig ConfigSource.opencode (Json.num 1)
          ⟨[(FPath.cfg ConfigSource.opencode, stringifyDoc (Json.num 0))], []⟩
          ⟨2026, 1, 1, 0, 0, 0, 0⟩).2)
        ⟨2026, 1, 1, 0, 0, 0, 0⟩).2.fs) =
      backupDirs (((writeConfig ConfigSource.opencode (Json.num 1)
          ⟨[(FPath.cfg ConfigSource.opencode, stringifyDoc (Json.num 0))], []⟩
          ⟨2026, 1, 1, 0, 0, 0, 0⟩).2).fs) ∧
    (backupDirs (((writeConfig ConfigSource.opencode (Json.num 1)
          ⟨[(FPath.cfg ConfigSource.opencode, stringifyDoc (Json.num 0))], []⟩
          ⟨2026, 1, 1, 0, 0, 0, 0⟩).2).fs)).length = 1 ∧
    fsGet (((writeConfig ConfigSource.opencode (Json.num 1)
          ⟨[(FPath.cfg ConfigSource.opencode, stringifyDoc (Json.num 0))], []⟩
          ⟨2026, 1, 1, 0, 0, 0, 0⟩).2).fs)
        (FPath.backup (backupNameChars ⟨2026, 1, 1, 0, 0, 0, 0⟩)
          ConfigSource.opencode) =
      some (stringifyDoc (Json.num 0)) ∧
    fsGet ((writeConfig ConfigSource.opencode (Json.num 2)
        ((writeConfig ConfigSource.opencode (Json.num 1)
          ⟨[(FPath.cfg ConfigSource.opencode, stringifyDoc (Json.num 0))], []⟩
          ⟨2026, 1, 1, 0, 0, 0, 0⟩).2)
        ⟨2026, 1, 1, 0, 0, 0, 0⟩).2.fs)
        (FPath.backup (backupNameChars ⟨2026, 1, 1, 0, 0, 0, 0⟩)
          ConfigSource.opencode) =
      some (stringifyDoc (Json.num 1)) :=
  ⟨by rfl, by rfl, by rfl, by rfl⟩

/-- What a successful rollback computes, given the chosen backup and its
content. -/
theorem rollbackConfig_eq (src : ConfigSource) (st : Store) (bf : FPath)
    (c : List Char) (hfind : findLatestBackup src st.fs = some bf)
    (hget : fsGet st.fs bf = some c) :
    rollbackConfig src st = Except.ok (bf,
      ⟨fsSet (fsDel st.fs (FPath.tmp src)) (FPath.cfg src) c,
        st.cache⟩) := by
  simp only [rollbackConfig, hfind, hget, fsRename, fsGet_set_same,
    fsDel_set_same]

/-- No backup file for the source means no latest backup. -/
theorem findLatestBackup_none (src : ConfigSource)
    (fs : List (FPath × List Char))
    (h : ∀ ts, fsGet fs (FPath.backup ts src) = none) :
    findLatestBackup src fs = none := by
  unfold findLatestBackup
  rw [List.find?_eq_none.mpr]
  · rfl
  · intro ts _
    rw [h ts]
    simp

/-- A write leaves the written document readable at the live path. -/
theorem writeConfig_fsGet_cfg (src : ConfigSource) (x : Json) (st : Store)
    (t : DateTime) :
    fsGet (writeConfig src x st t).2.fs (FPath.cfg src) =
      some (stringifyDoc x) := by
  rw [writeConfig_fs]
  exact fsGet_set_same _ _ _

/-- C5: `rollbackConfig` restores the most recently created backup.
Writing A at `t1` and then B at `t2` — with `t2`'s backup name dominating
`t1`'s and every pre-existing backup name, as successive `toISOString`
clock readings do — makes the backup taken by the write of B (a snapshot
of A's document) the latest backup; rollback restores it, and a subsequent
read returns A's content, not B's.  When no backup holds a file for the
source, rollback fails with the 404 no-backup error. -/
theorem C5_rollback_restores_latest_backup (src : ConfigSource)
    (A B : Json) (st0 : Store) (t1 t2 : DateTime) (now : Nat)
    (h0 : ∀ y ∈ backupDirs st0.fs, nameLe y (backupNameChars t2))
    (h12 : nameLe (backupNameChars t1) (backupNameChars t2)) :
    (∃ st3,
      rollbackConfig src
          (writeConfig src B (writeConfig src A st0 t1).2 t2).2 =
        Except.ok (FPath.backup (backupNameChars t2) src, st3) ∧
      (readConfig src st3 now).1 = Except.ok A) ∧
    (∀ st : Store, (∀ ts, fsGet st.fs (FPath.backup ts src) = none) →
      rollbackConfig src st = Except.error noBackupErr) ∧
    noBackupErr.status = 404 := by
  refine ⟨?_, ?_, rfl⟩
  · set st1 : Store := (writeConfig src A st0 t1).2 with hst1
    set st2 : Store := (writeConfig src B st1 t2).2 with hst2
    have hF1 : fsGet st1.fs (FPath.cfg src) = some (stringifyDoc A) :=
      writeConfig_fsGet_cfg src A st0 t1
    have hF3 : fsGet st2.fs (FPath.backup (backupNameChars t2) src) =
        some (stringifyDoc A) := by
      rw [hst2, writeConfig_fs, createBackup_snd]
      rw [fsGet_set_ne _ _ _ _ (by intro h; exact FPath.noConfusion h)]
      rw [fsGet_del_ne _ _ _ (by intro h; exact FPath.noConfusion h)]
      rw [hF1, fsGet_set_same]
      rfl
    have hnames : st2.fs.filterMap bname =
        backupNameChars t2 :: backupNameChars t1 ::
          st0.fs.filterMap bname := by
      rw [hst2, filterMap_bname_writeConfig, hst1,
        filterMap_bname_writeConfig]
    have hfind : findLatestBackup src st2.fs =
        some (FPath.backup (backupNameChars t2) src) := by
      apply findLatestBackup_eq
      · rw [hnames]
        exact List.mem_cons_self _ _
      · intro y hy
        rw [hnames] at hy
        rcases List.mem_cons.mp hy with rfl | hy
        · exact fun hlt => lt_irrefl _ hlt
        · rcases List.mem_cons.mp hy with rfl | hy
          · exact h12
          · exact h0 y (List.mem_dedup.mpr hy)
      · rw [hF3]
        rfl
    refine ⟨_, rollbackConfig_eq src st2 _ _ hfind hF3, ?_⟩
    have hmiss : cacheGet st2.cache (FPath.cfg src) now = none := by
      rw [hst2, writeConfig_cache]
      exact cacheGet_del_same _ _ _
    have hfs : fsGet (fsSet (fsDel st2.fs (FPath.tmp src)) (FPath.cfg src)
        (stringifyDoc A)) (FPath.cfg src) = some (stringifyDoc A) :=
      fsGet_set_same _ _ _
    rw [(readConfig_miss src ⟨fsSet (fsDel st2.fs (FPath.tmp src))
      (FPath.cfg src) (stringifyDoc A), st2.cache⟩ now hmiss).2.2
      (stringifyDoc A) A hfs (parseDoc_stringify A)]
  · intro st hts
    have hfind := findLatestBackup_none src st.fs hts
    simp only [rollbackConfig, hfind]

/-- Witness for C5: from the empty store, write `1` at the last clock tick
of a millisecond and `2` one millisecond later, roll back, read `1`. -/
theorem C5_rollback_restores_latest_backup_witness :
    (∃ st3,
      rollbackConfig ConfigSource.opencode
          (writeConfig ConfigSource.opencode (Json.num 2)
            (writeConfig ConfigSource.opencode (Json.num 1) ⟨[], []⟩
              ⟨2026, 1, 1, 0, 0, 0, 0⟩).2 ⟨2026, 1, 1, 0, 0, 0, 1⟩).2 =
        Except.ok (FPath.backup
          (backupNameChars ⟨2026, 1, 1, 0, 0, 0, 1⟩)
          ConfigSource.opencode, st3) ∧
      (readConfig ConfigSource.opencode st3 0).1 =
        Except.ok (Json.num 1)) ∧
    (∀ st : Store,
      (∀ ts, fsGet st.fs (FPath.backup ts ConfigSource.opencode) = none) →
      rollbackConfig ConfigSource.opencode st =
        Except.error noBackupErr) ∧
    noBackupErr.status = 404 :=
  C5_rollback_restores_latest_backup ConfigSource.opencode
    (Json.num 1) (Json.num 2) ⟨[], []⟩
    ⟨2026, 1, 1, 0, 0, 0, 0⟩ ⟨2026, 1, 1, 0, 0, 0, 1⟩ 0
    (by
      intro y hy
      exact absurd hy (List.not_mem_nil y))
    (by decide)

/-! ## Queue lemmas (claim C6) -/

/-- `earlier` witnesses membership of the later element. -/
theorem earlier_mem_right : ∀ (l : List Nat) (m i : Nat),
    earlier l m i → i ∈ l := by
  intro l
  induction l with
  | nil => intro m i h; exact h.elim
  | cons x xs ih =>
      intro m i h
      rcases h with ⟨_, hi⟩ | h
      · exact List.mem_cons_of_mem x hi
      · exact List.mem_cons_of_mem x (ih m i h)

/-- A caller with a queue entry has arrived. -/
theorem depIn_mem : ∀ (l : List Nat) (i : Nat) (d : Option Nat),
    depIn l i = some d → i ∈ l := by
  intro l
  induction l with
  | nil => intro i d h; exact Option.noConfusion h
  | cons x xs ih =>
      intro i d h
      by_cases hx : x = i
      · exact hx ▸ List.mem_cons_self x xs
      · simp only [depIn, hx, if_false] at h
        cases hd : depIn xs i with
        | none => rw [hd] at h; exact Option.noConfusion h
        | some d' => exact List.mem_cons_of_mem x (ih i d' hd)

/-- The chained-on predecessor has arrived. -/
theorem depIn_some_mem : ∀ (l : List Nat) (i j : Nat),
    depIn l i = some (some j) → j ∈ l := by
  intro l
  induction l with
  | nil => intro i j h; exact Option.noConfusion h
  | cons x xs ih =>
      intro i j h
      by_cases hx : x = i
      · simp [depIn, hx] at h
      · simp only [depIn, hx, if_false] at h
        cases hd : depIn xs i with
        | none => rw [hd] at h; exact Option.noConfusion h
        | some d =>
            rw [hd] at h
            simp only [Option.map_some'] at h
            have hj := Option.some.inj (Option.some.inj h)
            cases d with
            | none => exact hj ▸ List.mem_cons_self x xs
            | some j' =>
                have : j' = j := hj
                exact this ▸ List.mem_cons_of_mem x (ih i j' hd)

/-- A caller that chained on nothing was first: nothing is earlier. -/
theorem depIn_head : ∀ (l : List Nat) (i : Nat), l.Nodup →
    depIn l i = some none → ∀ m, ¬ earlier l m i := by
  intro l
  induction l with
  | nil => intro i _ h; exact Option.noConfusion h
  | cons x xs ih =>
      intro i hnd h m hm
      by_cases hx : x = i
      · subst hx
        have hxs : x ∉ xs := (List.nodup_cons.mp hnd).1
        rcases hm with ⟨_, hi⟩ | hm
        · exact hxs hi
        · exact hxs (earlier_mem_right xs m x hm)
      · simp only [depIn, hx, if_false] at h
        cases hd : depIn xs i with
        | none => rw [hd] at h; exact Option.noConfusion h
        | some d =>
            rw [hd] at h
            simp only [Option.map_some'] at h
            exact Option.noConfusion (Option.some.inj h)

/-- Whatever is earlier than a caller is its chained-on predecessor or
earlier than that predecessor. -/
theorem depIn_prev : ∀ (l : List Nat) (i j : Nat), l.Nodup →
    depIn l i = some (some j) → ∀ m, earlier l m i →
    m = j ∨ earlier l m j := by
  intro l
  induction l with
  | nil => intro i j _ h; exact Option.noConfusion h
  | cons x xs ih =>
      intro i j hnd h m hm
      by_cases hx : x = i
      · simp [depIn, hx] at h
      · simp only [depIn, hx, if_false] at h
        cases hd : depIn xs i with
        | none => rw [hd] at h; exact Option.noConfusion h
        | some d =>
            rw [hd] at h
            simp only [Option.map_some'] at h
            have hj := Option.some.inj (Option.some.inj h)
            cases d with
            | none =>
                have hj' : j = x := hj.symm
                subst hj'
                obtain ⟨xs', hxs'⟩ : ∃ xs', xs = i :: xs' := by
                  cases xs with
                  | nil => exact Option.noConfusion hd
                  | cons z zs =>
                      by_cases hz : z = i
                      · exact ⟨zs, by rw [hz]⟩
                      · simp only [depIn, hz, if_false] at hd
                        cases hd2 : depIn zs i with
                        | none => rw [hd2] at hd; exact Option.noConfusion hd
                        | some d2 =>
                            rw [hd2] at hd
                            simp only [Option.map_some'] at hd
                            exact Option.noConfusion (Option.some.inj hd)
                subst hxs'
                rcases hm with ⟨hxm, _⟩ | hm
                · exact Or.inl hxm.symm
                · exfalso
                  have hni : i ∉ xs' :=
                    (List.nodup_cons.mp ((List.nodup_cons.mp hnd).2)).1
                  rcases hm with ⟨_, hi⟩ | hm
                  · exact hni hi
                  · exact hni (earlier_mem_right xs' m i hm)
            | some j' =>
                have hj' : j' = j := hj
                rw [hj'] at hd
                rcases hm with ⟨hxm, _⟩ | hm
                · exact Or.inr (Or.inl ⟨hxm, depIn_some_mem xs i j hd⟩)
                · rcases ih i j (List.nodup_cons.mp hnd).2 hd m hm with
                    h1 | h1
                  · exact Or.inl h1
                  · exact Or.inr (Or.inr h1)

/-- Two arrived callers are equal or ordered by arrival. -/
theorem earlier_or : ∀ (l : List Nat) (i j : Nat), i ∈ l → j ∈ l →
    i = j ∨ earlier l i j ∨ earlier l j i := by
  intro l
  induction l with
  | nil => intro i j hi; exact absurd hi (List.not_mem_nil i)
  | cons x xs ih =>
      intro i j hi hj
      by_cases hix : i = x
      · by_cases hjx : j = x
        · exact Or.inl (hix.trans hjx.symm)
        · have hj' : j ∈ xs := (List.mem_cons.mp hj).resolve_left hjx
          exact Or.inr (Or.inl (Or.inl ⟨hix.symm, hj'⟩))
      · by_cases hjx : j = x
        · have hi' : i ∈ xs := (List.mem_cons.mp hi).resolve_left hix
          exact Or.inr (Or.inr (Or.inl ⟨hjx.symm, hi'⟩))
        · have hi' : i ∈ xs := (List.mem_cons.mp hi).resolve_left hix
          have hj' : j ∈ xs := (List.mem_cons.mp hj).resolve_left hjx
          rcases ih i j hi' hj' with h | h | h
          · exact Or.inl h
          · exact Or.inr (Or.inl (Or.inr h))
          · exact Or.inr (Or.inr (Or.inr h))

/-- Appending a fresh arrival does not reorder the existing queue. -/
theorem earlier_append_fresh : ∀ (l : List Nat) (k m j : Nat), j ≠ k →
    earlier (l ++ [k]) m j → earlier l m j := by
  intro l
  induction l with
  | nil =>
      intro k m j hjk h
      rcases h with ⟨_, hj⟩ | h
      · exact absurd hj (List.not_mem_nil j)
      · exact h.elim
  | cons x xs ih =>
      intro k m j hjk h
      rcases h with ⟨hxm, hjm⟩ | h
      · rcases List.mem_append.mp hjm with hjx | hjk2
        · exact Or.inl ⟨hxm, hjx⟩
        · exact absurd (List.mem_singleton.mp hjk2) hjk
      · exact Or.inr (ih k m j hjk h)

/-- Each queue step preserves the reachability invariant. -/
theorem qstep_inv (s s' : QState) (e : QEv) (hinv : QInv s)
    (h : qstep s e = some s') : QInv s' := by
  obtain ⟨hnd, hsl, hlo, hP5⟩ := hinv
  cases e with
  | arrive i =>
      simp only [qstep] at h
      split at h
      · exact Option.noConfusion h
      · next hmem =>
          have hs' := Option.some.inj h
          subst hs'
          refine ⟨?_, hsl, ?_, ?_⟩
          · simp [List.nodup_append, hnd, hmem]
          · intro x hx
            exact List.mem_append_left _ (hlo x hx)
          · intro j hj m hm
            exact hP5 j hj m (earlier_append_fresh s.order i m j
              (fun hji => hmem (hji ▸ hlo j hj)) hm)
  | launch i =>
      simp only [qstep] at h
      split at h
      · exact Option.noConfusion h
      · next dep hdep =>
          split at h
          · exact Option.noConfusion h
          · next hil =>
              split at h
              · have hs' := Option.some.inj h
                subst hs'
                refine ⟨hnd, ?_, ?_, ?_⟩
                · intro x hx
                  exact List.mem_cons_of_mem i (hsl x hx)
                · intro x hx
                  rcases List.mem_cons.mp hx with rfl | hx
                  · exact depIn_mem s.order x none hdep
                  · exact hlo x hx
                · intro j hj m hm
                  rcases List.mem_cons.mp hj with rfl | hj
                  · exact absurd hm (depIn_head s.order j hnd hdep m)
                  · exact hP5 j hj m hm
              · next j =>
                  split at h
                  · next hjs =>
                      have hs' := Option.some.inj h
                      subst hs'
                      refine ⟨hnd, ?_, ?_, ?_⟩
                      · intro x hx
                        exact List.mem_cons_of_mem i (hsl x hx)
                      · intro x hx
                        rcases List.mem_cons.mp hx with rfl | hx
                        · exact depIn_mem s.order x (some j) hdep
                        · exact hlo x hx
                      · intro j' hj' m hm
                        rcases List.mem_cons.mp hj' with rfl | hj'
                        · rcases depIn_prev s.order j' j hnd hdep m hm with
                            rfl | hmj
                          · exact hjs
                          · exact hP5 j (hsl j hjs) m hmj
                        · exact hP5 j' hj' m hm
                  · exact Option.noConfusion h
  | settle i =>
      simp only [qstep] at h
      split at h
      · next hg =>
          have hs' := Option.some.inj h
          subst hs'
          refine ⟨hnd, ?_, hlo, ?_⟩
          · intro x hx
            rcases List.mem_cons.mp hx with rfl | hx
            · exact hg.1
            · exact hsl x hx
          · intro j hj m hm
            exact List.mem_cons_of_mem i (hP5 j hj m hm)
      · exact Option.noConfusion h

/-- Running a trace preserves the invariant. -/
theorem qrun_inv : ∀ (tr : List QEv) (s s' : QState), QInv s →
    qrun s tr = some s' → QInv s' := by
  intro tr
  induction tr with
  | nil =>
      intro s s' hinv h
      have hss := Option.some.inj h
      exact hss ▸ hinv
  | cons e es ih =>
      intro s s' hinv h
      simp only [qrun] at h
      split at h
      · exact Option.noConfusion h
      · next s1 hstep =>
          exact ih s1 s' (qstep_inv s s1 e hinv hstep) h

/-- The empty queue satisfies the invariant. -/
theorem qInit_inv : QInv qInit := by
  refine ⟨List.nodup_nil, ?_, ?_, ?_⟩ <;> intro x hx <;>
    exact absurd hx (List.not_mem_nil x)

/-- C6 (amended): the per-command `bunxQueue` promise chain serializes
every launch for the command, not just the first-time warmup — along every
valid event trace, at most one caller's `runPluginCli` process is in
flight at any moment, so callers cannot proceed concurrently even after
the first call settles. -/
theorem C6_queue_serializes_every_launch (tr : List QEv) (s : QState)
    (hrun : qrun qInit tr = some s) (i j : Nat)
    (hi : inFlight s i) (hj : inFlight s j) : i = j := by
  obtain ⟨hnd, hsl, hlo, hP5⟩ := qrun_inv tr qInit s qInit_inv hrun
  rcases earlier_or s.order i j (hlo i hi.1) (hlo j hj.1) with h | h | h
  · exact h
  · exact absurd (hP5 j hj.1 i h) hi.2
  · exact absurd (hP5 i hi.1 j h) hj.2

/-- Witness for C6 on the two-caller trace where the second launch is in
flight. -/
theorem C6_queue_serializes_every_launch_witness :
    qrun qInit [QEv.arrive 1, QEv.arrive 2, QEv.launch 1, QEv.settle 1,
      QEv.launch 2] = some ⟨[1, 2], [2, 1], [1]⟩ ∧
    inFlight ⟨[1, 2], [2, 1], [1]⟩ 2 ∧ (2 : Nat) = 2 :=
  ⟨by decide, by decide,
    C6_queue_serializes_every_launch
      [QEv.arrive 1, QEv.arrive 2, QEv.launch 1, QEv.settle 1, QEv.launch 2]
      ⟨[1, 2], [2, 1], [1]⟩ (by decide) 2 2 (by decide) (by decide)⟩

/-- C6 counterexample: after the first call has settled, later callers are
still serialized — with caller 1 settled and caller 2 in flight, caller 3
cannot launch, contradicting "once the first call settles, subsequent
calls proceed freely and concurrently". -/
theorem C6_third_caller_blocked_after_first_settles :
    qrun qInit [QEv.arrive 1, QEv.arrive 2, QEv.arrive 3, QEv.launch 1,
      QEv.settle 1, QEv.launch 2] = some ⟨[1, 2, 3], [2, 1], [1]⟩ ∧
    (1 : Nat) ∈ QState.settledL ⟨[1, 2, 3], [2, 1], [1]⟩ ∧
    inFlight ⟨[1, 2, 3], [2, 1], [1]⟩ 2 ∧
    qstep ⟨[1, 2, 3], [2, 1], [1]⟩ (QEv.launch 3) = none := by
  decide

end Commander
